import Mathlib

/-!
The repository ericaro/sbr: subrepository sets, manifest and scanner

A shallow embedding of `subrepositories.go`, `workspace.go` and `Scanner.go`.

* Go slices are lists; an in-place loop over a slice is a fold over the
  indices that reads and writes the backing list.
* A Go `map[string]Subrepository` is its list of entries, with at most one
  entry per key.  The order in which `range` enumerates a map is not fixed
  by the language, so every loop over a map is stated for an arbitrary
  permutation of the entries.
-/

set_option autoImplicit false

namespace Sbr

/-! ## subrepositories.go -/

/-- A path, as the list of its components: `/w/repoA` is `["w", "repoA"]`. -/
abbrev Path := List String

/-- The `Subrepository` struct: working dir, relative path, remote, branch. -/
structure Subrepository where
  wd : Path
  rel : String
  remote : String
  branch : String
deriving DecidableEq, Repr

/-- The type `Subrepositories []Subrepository`. -/
abbrev Subrepositories := List Subrepository

/-- A Go `map[string]Subrepository`, as the list of its entries. -/
abbrev SbrMap := List (String × Subrepository)

/-- The comma-ok lookup `_, ok := m[k]`. -/
def mapHas (m : SbrMap) (k : String) : Bool :=
  m.any (fun e => decide (e.1 = k))

/-- The assignment `m[k] = v`: the entry for `k`, if any, is replaced. -/
def mapPut (m : SbrMap) (k : String) (v : Subrepository) : SbrMap :=
  m.filter (fun e => decide (e.1 ≠ k)) ++ [(k, v)]

/-- The function `indexSbr`: index the records by their `rel`. -/
def indexSbr (deps : Subrepositories) : SbrMap :=
  deps.foldl (fun i x => mapPut i x.rel x) []

/-- One `for id, t := range m` loop of `Diff`, enumerating the entries in the
order `entries`: the value is appended when its key is missing from `other`. -/
def diffLoop (entries : SbrMap) (other : SbrMap) : Subrepositories :=
  entries.foldl (fun acc e => if mapHas other e.1 then acc else acc ++ [e.2]) []

/-- The method `Diff`, when the first loop enumerates `targets` in the order
`tOrder` and the second enumerates `currents` in the order `cOrder`. -/
def DiffWith (tOrder cOrder : SbrMap) (current target : Subrepositories) :
    Subrepositories × Subrepositories :=
  let targets := indexSbr target
  let currents := indexSbr current
  (diffLoop tOrder currents, diffLoop cOrder targets)

/-- The method `current.Diff(target)` for one enumeration order (the order
in which the entries were stored). -/
def Diff (current target : Subrepositories) : Subrepositories × Subrepositories :=
  DiffWith (indexSbr target) (indexSbr current) current target

/-- Every pair `(insertion, deletion)` that `current.Diff(target)` can return:
one for each order in which the two maps can be enumerated. -/
def DiffResult (current target : Subrepositories)
    (r : Subrepositories × Subrepositories) : Prop :=
  ∃ tOrder cOrder : SbrMap,
    tOrder.Perm (indexSbr target) ∧ cOrder.Perm (indexSbr current) ∧
    r = DiffWith tOrder cOrder current target

/-- The method `AddAll`: append every element of `ins`; `changed` is set
when at least one element was appended. -/
def AddAll (d ins : Subrepositories) : Subrepositories × Bool :=
  ins.foldl (fun st x => (st.1 ++ [x], true)) (d, false)

/-- The loop state of `RemoveAll`: the backing array, the write offset `j`
and the flag `changed`. -/
structure RemoveState where
  sources : List Subrepository
  j : Nat
  changed : Bool
deriving DecidableEq, Repr

/-- One iteration `i` of the loop of `RemoveAll`: `d := sources[i]` is read
from the backing array; when its key is not deleted it is copied down to
`sources[j]` (only when `i != j`, which also sets `changed`) and `j` grows. -/
def removeStep (deleted : SbrMap) (st : RemoveState) (i : Nat) : RemoveState :=
  match st.sources[i]? with
  | none => st
  | some d =>
    if mapHas deleted d.rel then st
    else if i ≠ st.j then
      { sources := st.sources.set st.j d, j := st.j + 1, changed := true }
    else
      { st with j := st.j + 1 }

/-- The loop of `RemoveAll` over the indices `0 .. len(sources)-1`. -/
def removeLoop (deleted : SbrMap) (d : Subrepositories) : RemoveState :=
  (List.range d.length).foldl (removeStep deleted) ⟨d, 0, false⟩

/-- The method `d.RemoveAll(del)`: the new value of `*d` (`sources[0:j]`)
and the returned flag `changed`. -/
def RemoveAll (d del : Subrepositories) : Subrepositories × Bool :=
  let st := removeLoop (indexSbr del) d
  (st.sources.take st.j, st.changed)

/-- A list of records is unique by `rel`. -/
def UniqueRel (s : Subrepositories) : Prop := (s.map (·.rel)).Nodup

instance (s : Subrepositories) : Decidable (UniqueRel s) := by
  unfold UniqueRel; infer_instance

/-! ## Scanner.go and `WorkingDirSubpath`

Paths are lists of components (`/w/repoA` is `["w", "repoA"]`), so that
`filepath.Join(path, name)` appends a component and `filepath.Dir(path)`
drops the last one.  The directory tree is the data `filepath.Walk` obtains
from `os.Lstat` and from reading directories: the children of a directory
are listed in the order `Walk` visits them (lexical order of the names). -/

/-- The call `filepath.Join(path, name)` for an entry name. -/
def pathJoin (path : Path) (name : String) : Path := path ++ [name]

/-- The call `filepath.Dir(path)`. -/
def pathDir (path : Path) : Path := path.dropLast

/-- What is found at a path: something that is not a directory, a directory
with its entries, a directory whose listing fails, or a name whose `Lstat`
fails. -/
inductive Entry where
  | file (name : String)
  | dir (name : String) (children : List Entry)
  | unreadable (name : String) (err : String)
  | broken (name : String) (err : String)
deriving Repr

/-- The base name of an entry. -/
def Entry.name : Entry → String
  | .file n => n
  | .dir n _ => n
  | .unreadable n _ => n
  | .broken n _ => n

/-- The `os.FileInfo` methods the callbacks use: `Name()` and `IsDir()`. -/
structure FileInfo where
  name : String
  isDir : Bool
deriving DecidableEq, Repr

/-- The `error` values of a walk: `filepath.SkipDir`, or any other error. -/
inductive WalkError where
  | SkipDir
  | other (msg : String)
deriving DecidableEq, Repr

/-- A `filepath.WalkFunc` closed over the list of emitted paths: it gets the
emitted paths so far, the path, the file info (`none` is a nil `FileInfo`)
and the incoming error, and returns the new emitted paths and its error;
`none` is a run-time panic. -/
abbrev WalkFunc :=
  List Path → Path → Option FileInfo → Option WalkError → Option (List Path × Option WalkError)

/-- The method `scanner.walkFn`; a send on `s.prjc` appends to the emitted
paths.  `f.IsDir()` on a nil `f` is a nil dereference. -/
def walkFn : WalkFunc := fun prjc path f _err =>
  match f with
  | none => none
  | some f =>
    if f.isDir then
      if f.name = ".git" then some (prjc ++ [pathDir path], some WalkError.SkipDir)
      else some (prjc, none)
    else some (prjc, none)

/-- The closure `walker` of `WorkingDirSubpath`; it appends to `prjc`. -/
def walker : WalkFunc := fun prjc path f _err =>
  match f with
  | none => none
  | some f =>
    if f.isDir then
      if f.name = ".git" then some (prjc ++ [pathDir path], some WalkError.SkipDir)
      else some (prjc, none)
    else some (prjc, none)

/-- The state of a walk: the paths emitted by the callback, and the paths
the callback has been called on. -/
structure WalkState where
  prjc : List Path
  visited : List Path
deriving DecidableEq, Repr

/-- One call of the callback by `filepath.Walk`, recorded in `visited`. -/
def callFn (fn : WalkFunc) (st : WalkState) (path : Path) (f : Option FileInfo)
    (err : Option WalkError) : Option (WalkState × Option WalkError) :=
  match fn st.prjc path f err with
  | none => none
  | some (prjc, e) => some (⟨prjc, st.visited ++ [path]⟩, e)

/-- Whether `Lstat` fails on the entry. -/
def Entry.lstatFails : Entry → Bool
  | .broken _ _ => true
  | _ => false

/-- Whether the entry is a directory (`IsDir()` of its file info). -/
def Entry.isDir : Entry → Bool
  | .dir _ _ => true
  | .unreadable _ _ => true
  | _ => false

mutual
/-- The function `walk` of `path/filepath`: a non-directory is handed to the
callback; a directory is listed, handed to the callback with the listing
error, and when neither failed its entries are walked in order.  On an entry
whose `Lstat` failed the callback is called with a nil file info. -/
def walk (fn : WalkFunc) (path : Path) (st : WalkState) :
    Entry → Option (WalkState × Option WalkError)
  | .file n => callFn fn st path (some ⟨n, false⟩) none
  | .broken _ msg => callFn fn st path none (some (WalkError.other msg))
  | .unreadable n msg => callFn fn st path (some ⟨n, true⟩) (some (WalkError.other msg))
  | .dir n cs =>
    match callFn fn st path (some ⟨n, true⟩) none with
    | none => none
    | some (st1, some e) => some (st1, some e)
    | some (st1, none) => walkList fn path st1 cs
/-- The loop of `walk` over the names of a directory: an error of an entry
stops the walk, except `SkipDir` from a directory or from an entry whose
`Lstat` failed. -/
def walkList (fn : WalkFunc) (path : Path) (st : WalkState) :
    List Entry → Option (WalkState × Option WalkError)
  | [] => some (st, none)
  | c :: cs =>
    match walk fn (pathJoin path c.name) st c with
    | none => none
    | some (st1, none) => walkList fn path st1 cs
    | some (st1, some e) =>
      if (c.lstatFails || c.isDir) && decide (e = WalkError.SkipDir) then
        walkList fn path st1 cs
      else some (st1, some e)
end

/-- The function `filepath.Walk(root, fn)`, where `root` is the path
`parent/name` of the entry `root`: `SkipDir` from the root is not an error. -/
def Walk (fn : WalkFunc) (parent : Path) (root : Entry) :
    Option (WalkState × Option WalkError) :=
  match walk fn (pathJoin parent root.name) ⟨[], []⟩ root with
  | none => none
  | some (st, some WalkError.SkipDir) => some (st, none)
  | some (st, e) => some (st, e)

/-- The method `scanner.Find`: the paths sent on `s.prjc` before it is
closed and the returned error; `none` is a panic. -/
def Find (parent : Path) (root : Entry) : Option (List Path × Option WalkError) :=
  (Walk walkFn parent root).map (fun r => (r.1.prjc, r.2))

/-- The method `WorkingDirSubpath` for the working directory `parent/name`
of the entry `root`: the error of `filepath.Walk` is dropped. -/
def WorkingDirSubpath (parent : Path) (root : Entry) : Option (List Path) :=
  (Walk walker parent root).map (fun r => r.1.prjc)

mutual
/-- No `Lstat` fails anywhere in the tree (a directory may fail to list). -/
def Entry.noLstatError : Entry → Bool
  | .file _ => true
  | .dir _ cs => noLstatErrorList cs
  | .unreadable _ _ => true
  | .broken _ _ => false
/-- No `Lstat` fails in any of the trees. -/
def noLstatErrorList : List Entry → Bool
  | [] => true
  | c :: cs => c.noLstatError && noLstatErrorList cs
end

mutual
/-- The entries of every directory of the tree have distinct names. -/
def Entry.distinctNames : Entry → Bool
  | .dir _ cs => decide ((cs.map Entry.name).Nodup) && distinctNamesList cs
  | _ => true
/-- The entries of every directory of the trees have distinct names. -/
def distinctNamesList : List Entry → Bool
  | [] => true
  | c :: cs => c.distinctNames && distinctNamesList cs
end

/-- The entry `c` at path `q` is reachable from the entry `e` at path `p`
without passing through a directory named `.git`: every directory on the way
from `e` down to the parent of `c` has another name. -/
inductive Reachable (p : Path) (e : Entry) : Path → Entry → Prop
  | here : Reachable p e p e
  | child {q : Path} {n : String} {cs : List Entry} {c : Entry} :
      Reachable p e q (Entry.dir n cs) → n ≠ ".git" → c ∈ cs →
      Reachable p e (pathJoin q c.name) c

mutual
/-- The entries the walk is expected to visit, with their paths: those
reachable without passing through a directory named `.git`, in pre-order. -/
def reachability (p : Path) : Entry → List (Path × Entry)
  | .dir n cs =>
    if n = ".git" then [(p, .dir n cs)] else (p, .dir n cs) :: reachabilityList p cs
  | .file n => [(p, .file n)]
  | .unreadable n m => [(p, .unreadable n m)]
  | .broken n m => [(p, .broken n m)]
/-- The expected visits below the directory `p` with the entries `cs`. -/
def reachabilityList (p : Path) : List Entry → List (Path × Entry)
  | [] => []
  | c :: cs => reachability (pathJoin p c.name) c ++ reachabilityList p cs
end

/-- The entry is a directory named `.git` whose listing succeeds or fails. -/
def Entry.isGitDir (e : Entry) : Bool := e.isDir && decide (e.name = ".git")

/-- The tree of the example `/w/repoA/.git/modules/x/.git`, rooted at `/w`. -/
def nestedExample : Entry :=
  .dir "w" [.dir "repoA" [.dir ".git" [.dir "modules" [.dir "x" [.dir ".git" []]]]]]

/-! ## The manifest: `WriteSubrepositoryTo` and `ReadFrom`

The writer formats with the verb `%q` of `fmt` (`strconv.Quote`) and the
reader parses with `encoding/csv` (`Comma = ' '`, `Comment = '#'`,
`FieldsPerRecord = -1`, `LazyQuotes` and `TrimLeadingSpace` unset).  Both
are modelled on texts that are lists of characters (valid Unicode). -/

/-- The digit `lowerhex[n]` of `strconv`. -/
def lowerhex (n : Nat) : Char :=
  "0123456789abcdef".toList.getD n '0'

/-- The function `strconv.IsPrint`: explicit on Latin-1, and given by the
Unicode tables of `strconv`, the parameter `table`, above it. -/
def IsPrint (table : Char → Bool) (r : Char) : Bool :=
  if r.toNat ≤ 0xFF then
    if 0x20 ≤ r.toNat && r.toNat < 0x7F then true
    else if 0xA1 ≤ r.toNat then r.toNat != 0xAD
    else false
  else table r

/-- The function `appendEscapedRune` of `strconv` for the quote `"`, with
`ASCIIonly` and `graphicOnly` unset: the text appended for the rune `r`. -/
def escapedRune (table : Char → Bool) (r : Char) : List Char :=
  if r = '"' || r = '\\' then ['\\', r]
  else if IsPrint table r then [r]
  else if r = '\x07' then ['\\', 'a']
  else if r = '\x08' then ['\\', 'b']
  else if r = '\x0c' then ['\\', 'f']
  else if r = '\n' then ['\\', 'n']
  else if r = '\r' then ['\\', 'r']
  else if r = '\t' then ['\\', 't']
  else if r = '\x0b' then ['\\', 'v']
  else if r.toNat < 0x20 || r.toNat = 0x7F then
    ['\\', 'x', lowerhex (r.toNat / 16), lowerhex (r.toNat % 16)]
  else if r.toNat < 0x10000 then
    ['\\', 'u'] ++ [12, 8, 4, 0].map (fun s => lowerhex (r.toNat / 2 ^ s % 16))
  else
    ['\\', 'U'] ++ [28, 24, 20, 16, 12, 8, 4, 0].map (fun s => lowerhex (r.toNat / 2 ^ s % 16))

/-- The function `strconv.Quote`, which is what `%q` prints for a string. -/
def Quote (table : Char → Bool) (s : String) : List Char :=
  ['"'] ++ s.toList.flatMap (escapedRune table) ++ ['"']

/-- Lexicographic comparison of two texts, character by character. -/
def ltChars : List Char → List Char → Bool
  | _, [] => false
  | [], _ :: _ => true
  | a :: as, b :: bs =>
    if a.toNat < b.toNat then true
    else if a.toNat = b.toNat then ltChars as bs
    else false

/-- The comparison `a < b` of two Go strings: lexicographic on the bytes of
the UTF-8 encoding, which orders texts as their code points do. -/
def strLess (a b : String) : Bool := ltChars a.toList b.toList

/-- The order `Less` of `Subrepositories`: by branch, then by `rel`. -/
def Less (a b : Subrepository) : Bool :=
  if a.branch = b.branch then strLess a.rel b.rel else strLess a.branch b.branch

/-- A result of `sort.Sort`: a permutation in which no element is `Less`
than an earlier one.  The sort is not stable. -/
def IsSorted (l r : Subrepositories) : Prop :=
  r.Perm l ∧ r.Pairwise (fun a b => Less b a = false)

/-- The call `sort.Sort(wdSbr)`, by insertion (one of the results allowed by
`IsSorted`). -/
def sortSbr (l : Subrepositories) : Subrepositories :=
  l.insertionSort (fun a b => Less b a = false)

/-- The loop of `WriteSubrepositoryTo` over the sorted slice, from the
previous branch `pbranch`: the text written. -/
def writeLoop (table : Char → Bool) : Subrepositories → String → List Char
  | [], _ => []
  | d :: ds, pbranch =>
    (if d.branch ≠ pbranch then Quote table d.branch ++ ['\n'] else []) ++
    (Quote table d.rel ++ [' '] ++ Quote table d.remote ++ ['\n']) ++
    writeLoop table ds d.branch

/-- The function `WriteSubrepositoryTo`: the text written to `file`. -/
def WriteSubrepositoryTo (table : Char → Bool) (wdSbr : Subrepositories) : List Char :=
  writeLoop table (sortSbr wdSbr) "master"

/-- Every text `WriteSubrepositoryTo` can write, one for each result the
sort can give. -/
def WriteResult (table : Char → Bool) (wdSbr : Subrepositories) (out : List Char) : Prop :=
  ∃ sorted, IsSorted wdSbr sorted ∧ out = writeLoop table sorted "master"

/-- The parse errors of `encoding/csv` that can arise here. -/
inductive CsvError where
  | ErrBareQuote
  | ErrQuote
deriving DecidableEq, Repr

deriving instance DecidableEq for Except

/-- The function `lengthNL` of `encoding/csv`. -/
def lengthNL (b : List Char) : Nat :=
  if b.getLast? = some '\n' then 1 else 0

/-- The method `readLine` of `csv.Reader`: the next line with its end of
line, and the rest of the input; `none` at the end of the input.  A `\r`
before the end of line, or at the very end of the input, is dropped. -/
def readLine (input : List Char) : Option (List Char × List Char) :=
  if input = [] then none
  else
    let body := input.takeWhile (fun c => c != '\n')
    let body := if body.getLast? = some '\r' then body.dropLast else body
    match input.dropWhile (fun c => c != '\n') with
    | [] => some (body, [])
    | _ :: rest => some (body ++ ['\n'], rest)

/-- The loop `parseField` of `csv.Reader.readRecord`, on the rest `line` of
the current line and the input `rest` after it.  The state is `none` at the
start of a field and `some buf` inside a quoted field whose text so far is
`buf`.  The result is the record and the input left; the outer `none` means
that the fuel ran out. -/
def parseField : Nat → Option (List Char) → List Char → List Char → List String →
    Option (Except CsvError (List String × List Char))
  | 0, _, _, _, _ => none
  | fuel + 1, none, line, rest, fields =>
    match line with
    | '"' :: line1 => parseField fuel (some []) line1 rest fields
    | _ =>
      match line.dropWhile (fun c => c != ' ') with
      | [] =>
        let field := line.take (line.length - lengthNL line)
        if field.contains '"' then some (.error .ErrBareQuote)
        else some (.ok (fields ++ [String.mk field], rest))
      | _ :: line1 =>
        let field := line.takeWhile (fun c => c != ' ')
        if field.contains '"' then some (.error .ErrBareQuote)
        else parseField fuel none line1 rest (fields ++ [String.mk field])
  | fuel + 1, some buf, line, rest, fields =>
    match line.dropWhile (fun c => c != '"') with
    | _ :: after =>
      let buf1 := buf ++ line.takeWhile (fun c => c != '"')
      match after with
      | '"' :: line1 => parseField fuel (some (buf1 ++ ['"'])) line1 rest fields
      | ' ' :: line1 => parseField fuel none line1 rest (fields ++ [String.mk buf1])
      | _ =>
        if lengthNL after = after.length then some (.ok (fields ++ [String.mk buf1], rest))
        else some (.error .ErrQuote)
    | [] =>
      if line ≠ [] then
        match readLine rest with
        | some (line1, rest1) => parseField fuel (some (buf ++ line)) line1 rest1 fields
        | none => parseField fuel (some (buf ++ line)) [] [] fields
      else some (.error .ErrQuote)

/-- The loop of `csv.Reader.ReadAll` over `readRecord`: comment lines and
empty lines are skipped, every other line starts a record. -/
def readAllLoop : Nat → List Char → List (List String) →
    Option (Except CsvError (List (List String)))
  | 0, _, _ => none
  | fuel + 1, input, records =>
    match readLine input with
    | none => some (.ok records)
    | some (line, rest) =>
      if line.head? = some '#' then readAllLoop fuel rest records
      else if line.length = lengthNL line then readAllLoop fuel rest records
      else
        match parseField (line.length + rest.length + 1) none line rest [] with
        | none => none
        | some (.error e) => some (.error e)
        | some (.ok (record, rest1)) => readAllLoop fuel rest1 (records ++ [record])

/-- The method `csv.Reader.ReadAll` on the whole text of the reader. -/
def ReadAll (input : List Char) : Option (Except CsvError (List (List String))) :=
  readAllLoop (input.length + 1) input []

/-- The errors `ReadFrom` returns: the one of the csv reader, or the one it
builds for the `i`-th record with `n` fields. -/
inductive ReadError where
  | csv (e : CsvError)
  | invalidRecord (i : Nat) (n : Nat)
deriving DecidableEq, Repr

/-- The loop of `ReadFrom` over the records, with the index `i`, the current
branch and the named result `sbr`; on a record with another number of
fields than 1 to 4 the function returns `sbr` as it stands and an error. -/
def readRecords (wd : Path) : List (List String) → Nat → String → Subrepositories →
    Subrepositories × Option ReadError
  | [], _, _, sbr => (sbr, none)
  | record :: records, i, currentBranch, sbr =>
    match record with
    | [a] => readRecords wd records (i + 1) a sbr
    | [a, b] => readRecords wd records (i + 1) currentBranch (sbr ++ [⟨wd, a, b, currentBranch⟩])
    | [a, b, c] => readRecords wd records (i + 1) currentBranch (sbr ++ [⟨wd, a, b, c⟩])
    | [_, b, c, d] => readRecords wd records (i + 1) currentBranch (sbr ++ [⟨wd, b, c, d⟩])
    | _ => (sbr, some (ReadError.invalidRecord i record.length))

/-- The method `ReadFrom` of a workspace with working dir `wd` on the text
of the reader: the named results `sbr` (`none` is the nil slice) and `err`.
The outer `none` means that the fuel of the csv model ran out. -/
def ReadFrom (wd : Path) (r : List Char) :
    Option (Option Subrepositories × Option ReadError) :=
  match ReadAll r with
  | none => none
  | some (.error e) => some (none, some (ReadError.csv e))
  | some (.ok records) =>
    let res := readRecords wd records 0 "master" []
    some (some res.1, res.2)

/-! ## The workspace

The world outside the process is what the accessors observe: the manifest
file as `os.Open` finds it, the directory tree at the working dir, and the
answers of the two `git` commands.  Every accessor returns, besides its
result and the new workspace, the events it caused. -/

/-- What `os.Open` finds at the path of the manifest. -/
inductive ManifestFile where
  | missing
  | failing (err : String)
  | text (content : List Char)
deriving DecidableEq, Repr

/-- The world a workspace runs in; `parent` and `root` are the tree whose
root is the working dir. -/
structure World where
  manifest : ManifestFile
  parent : Path
  root : Entry
  GitBranch : Path → Except String String
  GitRemoteOrigin : Path → Except String String

/-- The `Workspace` struct; a nil slice is `none`.  `wdIsAbs` is
`filepath.IsAbs` of the string `wd`, and so of every path found under it. -/
structure Workspace where
  wd : Path
  wdIsAbs : Bool
  sbrfilename : String
  fileSbr : Option Subrepositories
  wdSbr : Option Subrepositories
deriving DecidableEq, Repr

/-- The function `NewWorkspace`. -/
def NewWorkspace (wd : Path) (wdIsAbs : Bool) : Workspace :=
  { wd := wd, wdIsAbs := wdIsAbs, sbrfilename := ".sbr", fileSbr := none, wdSbr := none }

/-- What an accessor does to the world: it opens the manifest, walks the
working dir, or prints one of the three messages of `FileSubrepositories`. -/
inductive Event where
  | openManifest
  | walkDisk
  | printInvalidSkipping
  | printMissingSkipping
  | printOpenError (err : String)
deriving DecidableEq, Repr

/-- How a call ends: with a value, with a run-time panic, with the exit of
`log.Fatalf`, or, for the model only, out of fuel. -/
inductive Outcome (α : Type) where
  | ok (a : α)
  | panic
  | fatal (msg : String)
  | outOfFuel
deriving DecidableEq, Repr

/-- The method `FileSubrepositories`: the returned slice, the workspace and
the events.  The guard is the source's `x.wdSbr == nil`. -/
def FileSubrepositories (x : Workspace) (w : World) :
    Outcome (Option Subrepositories × Workspace × List Event) :=
  if x.wdSbr = none then
    match w.manifest with
    | .text r =>
      match ReadFrom x.wd r with
      | none => .outOfFuel
      | some (sbr, err) =>
        let x1 := { x with fileSbr := sbr }
        .ok (x1.fileSbr, x1,
          [Event.openManifest] ++ (if err ≠ none then [Event.printInvalidSkipping] else []))
    | .missing => .ok (x.fileSbr, x, [Event.openManifest, Event.printMissingSkipping])
    | .failing e => .ok (x.fileSbr, x, [Event.openManifest, Event.printOpenError e])
  else .ok (x.fileSbr, x, [])

/-- The length of the longest common prefix of two paths. -/
def commonPrefix : Path → Path → Nat
  | a :: as, b :: bs => if a = b then commonPrefix as bs + 1 else 0
  | _, _ => 0

/-- The call `filepath.Rel(base, targ)` for two clean absolute paths. -/
def pathRel (base targ : Path) : String :=
  let n := commonPrefix base targ
  let parts := List.replicate (base.length - n) ".." ++ targ.drop n
  if parts = [] then "." else "/".intercalate parts

/-- The text of a path, as `%s` prints it: the components joined by the
separator, after a leading separator when the path is absolute. -/
def pathString (isAbs : Bool) (p : Path) : String :=
  (if isAbs then "/" else "") ++ "/".intercalate p

/-- The method `relpath`: relative to `wd` when the path is absolute, the
path itself otherwise. -/
def relpath (x : Workspace) (subrepository : Path) : String :=
  if x.wdIsAbs then pathRel x.wd subrepository
  else "/".intercalate subrepository

/-- The loop of `WorkingDirSubrepositories` over the checkouts found; a
failing `git` command ends the process with the message of `log.Fatalf`. -/
def wdSbrLoop (x : Workspace) (w : World) : List Path → Subrepositories →
    Outcome Subrepositories
  | [], wdSbr => .ok wdSbr
  | prj :: rest, wdSbr =>
    match w.GitBranch prj with
    | .error e =>
      .fatal (pathString x.wdIsAbs prj ++ " doesn\x27t seem to have branches: " ++ e)
    | .ok branch =>
      match w.GitRemoteOrigin prj with
      | .error e =>
        .fatal (pathString x.wdIsAbs prj ++
          " doesn\x27t declare a remote \x27origin\x27: " ++ e)
      | .ok origin =>
        let rel := relpath x prj
        if rel ≠ "." then
          wdSbrLoop x w rest (wdSbr ++ [⟨x.wd, rel, origin, branch⟩])
        else wdSbrLoop x w rest wdSbr

/-- The method `WorkingDirSubrepositories`: computed when `x.wdSbr == nil`,
sorted and stored in `x.wdSbr`. -/
def WorkingDirSubrepositories (x : Workspace) (w : World) :
    Outcome (Option Subrepositories × Workspace × List Event) :=
  if x.wdSbr = none then
    match WorkingDirSubpath w.parent w.root with
    | none => .panic
    | some prjs =>
      match wdSbrLoop x w prjs [] with
      | .ok wdSbr =>
        let x1 := { x with wdSbr := some (sortSbr wdSbr) }
        .ok (x1.wdSbr, x1, [Event.walkDisk])
      | .panic => .panic
      | .fatal m => .fatal m
      | .outOfFuel => .outOfFuel
  else .ok (x.wdSbr, x, [])

/-- The two accessors of the derived sets. -/
inductive Accessor where
  | File
  | WorkingDir
deriving DecidableEq, Repr

/-- One call of an accessor. -/
def Accessor.call : Accessor → Workspace → World →
    Outcome (Option Subrepositories × Workspace × List Event)
  | .File => FileSubrepositories
  | .WorkingDir => WorkingDirSubrepositories

/-- A sequence of calls on one workspace: for each call, in order, the
slice returned and the events caused. -/
def runCalls (w : World) : List Accessor → Workspace →
    Outcome (List (Option Subrepositories × List Event))
  | [], _ => .ok []
  | a :: as, x =>
    match a.call x w with
    | .ok (s, x1, ev) =>
      match runCalls w as x1 with
      | .ok rs => .ok ((s, ev) :: rs)
      | .panic => .panic
      | .fatal m => .fatal m
      | .outOfFuel => .outOfFuel
    | .panic => .panic
    | .fatal m => .fatal m
    | .outOfFuel => .outOfFuel

/-- A world with the working dir `/w`, one checkout `/w/a` on branch
`master` with remote `r`, and the given manifest. -/
def sampleWorld (m : ManifestFile) : World :=
  { manifest := m, parent := [], root := .dir "w" [.dir "a" [.dir ".git" []]],
    GitBranch := fun _ => .ok "master", GitRemoteOrigin := fun _ => .ok "r" }

/-- A text that `%q` prints unchanged between two quotes: every character
is printable and is neither the quote nor the backslash. -/
def Plain (table : Char → Bool) (s : String) : Prop :=
  ∀ c ∈ s.toList, c ≠ '"' ∧ c ≠ '\\' ∧ IsPrint table c = true

/-- The three texts of the record are plain. -/
def PlainSbr (table : Char → Bool) (d : Subrepository) : Prop :=
  Plain table d.rel ∧ Plain table d.remote ∧ Plain table d.branch

/-- The record with the working dir of the reading workspace. -/
def withWd (wd : Path) (d : Subrepository) : Subrepository := { d with wd := wd }

/-- The csv records expected from what `writeLoop` writes. -/
def expectedRecords : Subrepositories → String → List (List String)
  | [], _ => []
  | d :: ds, pbranch =>
    (if d.branch ≠ pbranch then [[d.branch]] else []) ++ [[d.rel, d.remote]] ++
      expectedRecords ds d.branch

/-- The tree `/w` with a directory `a` whose listing fails, followed by the
checkout `b`. -/
def unreadableExample : Entry :=
  .dir "w" [.unreadable "a" "permission denied", .dir "b" [.dir ".git" []]]

/-- The tree `/w` with the checkout `b` followed by a name `c` whose `Lstat`
fails. -/
def brokenExample : Entry :=
  .dir "w" [.dir "b" [.dir ".git" []], .broken "c" "no such file"]

/-- The tree `/w` with the checkout `b` followed by a directory `c` that can
be listed but whose entry `x` cannot be reached by `Lstat` (a directory
without search permission). -/
def lstatFailureExample : Entry :=
  .dir "w" [.dir "b" [.dir ".git" []], .dir "c" [.broken "x" "permission denied"]]

/-- The tree `/w` with the checkout `b` whose `.git` directory holds a name
on which `Lstat` would fail. -/
def insideGitExample : Entry :=
  .dir "w" [.dir "b" [.dir ".git" [.broken "x" "permission denied"]]]

/-! ### Facts about the index -/

theorem mapHas_iff (m : SbrMap) (k : String) :
    mapHas m k = true ↔ ∃ e ∈ m, e.1 = k := by
  simp [mapHas, List.any_eq_true]

theorem mem_mapPut (m : SbrMap) (k : String) (v : Subrepository)
    (e : String × Subrepository) :
    e ∈ mapPut m k v ↔ (e ∈ m ∧ e.1 ≠ k) ∨ e = (k, v) := by
  simp [mapPut, List.mem_filter]

theorem mapPut_keys_nodup (m : SbrMap) (k : String) (v : Subrepository)
    (h : (m.map Prod.fst).Nodup) : ((mapPut m k v).map Prod.fst).Nodup := by
  unfold mapPut
  rw [List.map_append, List.nodup_append]
  refine ⟨?_, by simp, ?_⟩
  · exact (h.sublist ((List.filter_sublist m).map Prod.fst))
  · intro a ha hb
    simp only [List.map_cons, List.map_nil, List.mem_singleton] at hb
    simp only [List.mem_map, List.mem_filter] at ha
    obtain ⟨e, ⟨_, he⟩, rfl⟩ := ha
    simp at he
    exact he hb

theorem foldl_mapPut_keys_nodup (deps : Subrepositories) (m : SbrMap)
    (h : (m.map Prod.fst).Nodup) :
    ((deps.foldl (fun i x => mapPut i x.rel x) m).map Prod.fst).Nodup := by
  induction deps generalizing m with
  | nil => simpa using h
  | cons x xs ih => exact ih _ (mapPut_keys_nodup m x.rel x h)

theorem indexSbr_keys_nodup (deps : Subrepositories) :
    ((indexSbr deps).map Prod.fst).Nodup :=
  foldl_mapPut_keys_nodup deps [] (by simp)

theorem indexSbr_nodup (deps : Subrepositories) : (indexSbr deps).Nodup :=
  List.Nodup.of_map _ (indexSbr_keys_nodup deps)

theorem foldl_mapPut_has (deps : Subrepositories) (m : SbrMap) (k : String) :
    mapHas (deps.foldl (fun i x => mapPut i x.rel x) m) k = true ↔
      mapHas m k = true ∨ ∃ x ∈ deps, x.rel = k := by
  induction deps generalizing m with
  | nil => simp
  | cons x xs ih =>
    rw [List.foldl_cons, ih]
    simp only [mapHas_iff, mem_mapPut, List.mem_cons]
    constructor
    · rintro (⟨e, (⟨he, _⟩ | rfl), rfl⟩ | ⟨y, hy, rfl⟩)
      · exact Or.inl ⟨e, he, rfl⟩
      · exact Or.inr ⟨x, Or.inl rfl, rfl⟩
      · exact Or.inr ⟨y, Or.inr hy, rfl⟩
    · rintro (⟨e, he, rfl⟩ | ⟨y, (rfl | hy), rfl⟩)
      · by_cases hk : e.1 = x.rel
        · exact Or.inl ⟨(x.rel, x), Or.inr rfl, hk.symm⟩
        · exact Or.inl ⟨e, Or.inl ⟨he, hk⟩, rfl⟩
      · exact Or.inl ⟨(y.rel, y), Or.inr rfl, rfl⟩
      · exact Or.inr ⟨y, hy, rfl⟩

/-- A key is in the index exactly when it is the `rel` of some record. -/
theorem indexSbr_has (deps : Subrepositories) (k : String) :
    mapHas (indexSbr deps) k = true ↔ ∃ x ∈ deps, x.rel = k := by
  unfold indexSbr
  rw [foldl_mapPut_has]
  simp [mapHas]

theorem foldl_mapPut_mem_unique (deps : Subrepositories) (m : SbrMap)
    (hu : UniqueRel deps) (e : String × Subrepository) :
    e ∈ deps.foldl (fun i x => mapPut i x.rel x) m ↔
      (e ∈ m ∧ ∀ x ∈ deps, x.rel ≠ e.1) ∨ (e.2 ∈ deps ∧ e.1 = e.2.rel) := by
  induction deps generalizing m with
  | nil => simp
  | cons x xs ih =>
    have hu' : UniqueRel xs := by
      unfold UniqueRel at hu ⊢
      simp only [List.map_cons, List.nodup_cons] at hu
      exact hu.2
    have hx : ∀ y ∈ xs, y.rel ≠ x.rel := by
      unfold UniqueRel at hu
      simp only [List.map_cons, List.nodup_cons, List.mem_map, not_exists, not_and] at hu
      exact fun y hy => hu.1 y hy
    rw [List.foldl_cons, ih _ hu']
    simp only [mem_mapPut, List.mem_cons, forall_eq_or_imp]
    constructor
    · rintro (⟨(⟨he, hk⟩ | rfl), hall⟩ | ⟨h2, h1⟩)
      · exact Or.inl ⟨he, fun h => hk h.symm, hall⟩
      · exact Or.inr ⟨Or.inl rfl, rfl⟩
      · exact Or.inr ⟨Or.inr h2, h1⟩
    · rintro (⟨he, hk, hall⟩ | ⟨(h2 | h2), h1⟩)
      · exact Or.inl ⟨Or.inl ⟨he, fun h => hk h.symm⟩, hall⟩
      · refine Or.inl ⟨Or.inr ?_, ?_⟩
        · rw [← h2]; exact Prod.ext h1 rfl
        · intro y hy; rw [h1, h2]; exact hx y hy
      · exact Or.inr ⟨h2, h1⟩

/-- For a list unique by `rel`, the entries of the index are exactly the
records of the list, each under its own `rel`. -/
theorem indexSbr_mem_unique (deps : Subrepositories) (hu : UniqueRel deps)
    (e : String × Subrepository) :
    e ∈ indexSbr deps ↔ e.2 ∈ deps ∧ e.1 = e.2.rel := by
  unfold indexSbr
  rw [foldl_mapPut_mem_unique deps [] hu]
  simp

theorem diffLoop_foldl (entries other : SbrMap) (acc : Subrepositories) :
    entries.foldl (fun acc e => if mapHas other e.1 then acc else acc ++ [e.2]) acc =
      acc ++ (entries.filter (fun e => !mapHas other e.1)).map Prod.snd := by
  induction entries generalizing acc with
  | nil => simp
  | cons e es ih =>
    rw [List.foldl_cons, ih]
    by_cases h : mapHas other e.1 = true
    · simp [h]
    · simp [h]

/-- The loop of `Diff` keeps, in enumeration order, the values whose key is
missing from the other index. -/
theorem diffLoop_eq (entries other : SbrMap) :
    diffLoop entries other =
      (entries.filter (fun e => !mapHas other e.1)).map Prod.snd := by
  unfold diffLoop
  rw [diffLoop_foldl]
  simp

theorem diffLoop_mem_unique (src other : Subrepositories) (hs : UniqueRel src)
    (ord : SbrMap) (hp : ord.Perm (indexSbr src)) (x : Subrepository) :
    x ∈ diffLoop ord (indexSbr other) ↔ x ∈ src ∧ ∀ c ∈ other, c.rel ≠ x.rel := by
  rw [diffLoop_eq]
  simp only [List.mem_map, List.mem_filter, hp.mem_iff, indexSbr_mem_unique src hs,
    Bool.not_eq_true', ← Bool.not_eq_true, indexSbr_has]
  constructor
  · rintro ⟨e, ⟨⟨hm, hk⟩, hno⟩, rfl⟩
    exact ⟨hm, fun c hc h => hno ⟨c, hc, by rw [h, hk]⟩⟩
  · rintro ⟨hm, hno⟩
    refine ⟨(x.rel, x), ⟨⟨hm, rfl⟩, ?_⟩, rfl⟩
    rintro ⟨c, hc, h⟩
    exact hno c hc h

theorem diffLoop_nodup_unique (src other : Subrepositories) (hs : UniqueRel src)
    (ord : SbrMap) (hp : ord.Perm (indexSbr src)) :
    (diffLoop ord (indexSbr other)).Nodup := by
  rw [diffLoop_eq]
  have hn : ord.Nodup := hp.nodup_iff.mpr (indexSbr_nodup src)
  refine List.Nodup.map_on ?_ (hn.filter _)
  intro a ha b hb hab
  have ha' := (indexSbr_mem_unique src hs a).mp (hp.mem_iff.mp (List.mem_filter.mp ha).1)
  have hb' := (indexSbr_mem_unique src hs b).mp (hp.mem_iff.mp (List.mem_filter.mp hb).1)
  exact Prod.ext (by rw [ha'.2, hb'.2, hab]) hab

theorem diffLoop_self (s : Subrepositories) (ord : SbrMap)
    (hp : ord.Perm (indexSbr s)) : diffLoop ord (indexSbr s) = [] := by
  rw [diffLoop_eq, List.map_eq_nil_iff, List.filter_eq_nil_iff]
  intro e he
  have : mapHas (indexSbr s) e.1 = true :=
    (mapHas_iff _ _).mpr ⟨e, hp.mem_iff.mp he, rfl⟩
  simp [this]

theorem uniqueRel_nodup (s : Subrepositories) (h : UniqueRel s) : s.Nodup :=
  List.Nodup.of_map _ h

theorem uniqueRel_append (a b : Subrepositories) (ha : UniqueRel a) (hb : UniqueRel b)
    (hd : ∀ x ∈ a, ∀ y ∈ b, x.rel ≠ y.rel) : UniqueRel (a ++ b) := by
  unfold UniqueRel at *
  rw [List.map_append, List.nodup_append]
  refine ⟨ha, hb, ?_⟩
  intro k hka hkb
  simp only [List.mem_map] at hka hkb
  obtain ⟨x, hx, rfl⟩ := hka
  obtain ⟨y, hy, hxy⟩ := hkb
  exact hd x hx y hy hxy.symm

/-! ### Diff -/

/-- C1: for `current` and `target` each unique by `rel`, whatever the order
in which the two maps are enumerated, the insertion list of
`current.Diff(target)` holds exactly the records of `target` whose `rel` is
the `rel` of no record of `current`, the deletion list exactly the records
of `current` whose `rel` is the `rel` of no record of `target`, each once;
a `rel` present in both operands is the `rel` of no record of either list,
whatever the remote and branch of the two records. -/
theorem Diff_insertions_deletions (current target : Subrepositories)
    (hc : UniqueRel current) (ht : UniqueRel target)
    (r : Subrepositories × Subrepositories) (hr : DiffResult current target r) :
    (∀ x, x ∈ r.1 ↔ x ∈ target ∧ ∀ c ∈ current, c.rel ≠ x.rel) ∧
    (∀ x, x ∈ r.2 ↔ x ∈ current ∧ ∀ t ∈ target, t.rel ≠ x.rel) ∧
    (∀ x ∈ r.1, r.1.count x = 1) ∧ (∀ x ∈ r.2, r.2.count x = 1) ∧
    (∀ c ∈ current, ∀ t ∈ target, c.rel = t.rel →
      ∀ x, x.rel = c.rel → x ∉ r.1 ∧ x ∉ r.2) := by
  obtain ⟨tOrder, cOrder, hpt, hpc, rfl⟩ := hr
  have h1 := diffLoop_mem_unique target current ht tOrder hpt
  have h2 := diffLoop_mem_unique current target hc cOrder hpc
  have n1 := diffLoop_nodup_unique target current ht tOrder hpt
  have n2 := diffLoop_nodup_unique current target hc cOrder hpc
  refine ⟨h1, h2, ?_, ?_, ?_⟩
  · intro x hx
    exact List.count_eq_one_of_mem n1 hx
  · intro x hx
    exact List.count_eq_one_of_mem n2 hx
  · intro c hcm t htm hct x hx
    constructor
    · intro hmem
      exact ((h1 x).mp hmem).2 c hcm hx.symm
    · intro hmem
      exact ((h2 x).mp hmem).2 t htm (by rw [hx, hct])

/-- C1 at a concrete input: the record `b` is inserted, `c` is deleted, and
`a`, whose remote and branch differ between the operands, is in neither. -/
theorem Diff_insertions_deletions_witness :
    (∀ x, x ∈ (Diff [⟨["w"], "a", "r1", "master"⟩, ⟨["w"], "c", "r3", "master"⟩]
        [⟨["w"], "a", "r9", "dev"⟩, ⟨["w"], "b", "r2", "master"⟩]).1 ↔
      x ∈ [(⟨["w"], "a", "r9", "dev"⟩ : Subrepository), ⟨["w"], "b", "r2", "master"⟩] ∧
        ∀ c ∈ [(⟨["w"], "a", "r1", "master"⟩ : Subrepository), ⟨["w"], "c", "r3", "master"⟩],
          c.rel ≠ x.rel) ∧
    Diff [⟨["w"], "a", "r1", "master"⟩, ⟨["w"], "c", "r3", "master"⟩]
        [⟨["w"], "a", "r9", "dev"⟩, ⟨["w"], "b", "r2", "master"⟩] =
      ([⟨["w"], "b", "r2", "master"⟩], [⟨["w"], "c", "r3", "master"⟩]) :=
  ⟨(Diff_insertions_deletions
      [⟨["w"], "a", "r1", "master"⟩, ⟨["w"], "c", "r3", "master"⟩]
      [⟨["w"], "a", "r9", "dev"⟩, ⟨["w"], "b", "r2", "master"⟩]
      (by decide) (by decide) _
      ⟨_, _, List.Perm.refl _, List.Perm.refl _, rfl⟩).1, by decide⟩

/-- C2: for `A` and `B` each unique by `rel` and sharing no `rel`, whatever
the enumeration order, `A.Diff(A ++ B)` returns insertions that are a
permutation of `B` and no deletion, and `(A ++ B).Diff(A)` returns no
insertion and deletions that are a permutation of `B`. -/
theorem Diff_append_disjoint (A B : Subrepositories)
    (hA : UniqueRel A) (hB : UniqueRel B)
    (hd : ∀ x ∈ A, ∀ y ∈ B, x.rel ≠ y.rel) :
    (∀ r, DiffResult A (A ++ B) r → r.1.Perm B ∧ r.2 = []) ∧
    (∀ r, DiffResult (A ++ B) A r → r.1 = [] ∧ r.2.Perm B) := by
  have hAB := uniqueRel_append A B hA hB hd
  have hBn := uniqueRel_nodup B hB
  have key : ∀ x, (x ∈ A ++ B ∧ ∀ c ∈ A, c.rel ≠ x.rel) ↔ x ∈ B := by
    intro x
    constructor
    · rintro ⟨hx, hno⟩
      rcases List.mem_append.mp hx with h | h
      · exact absurd rfl (hno x h)
      · exact h
    · intro hx
      exact ⟨List.mem_append_right _ hx, fun c hc => hd c hc x hx⟩
  have none : ∀ x, ¬ (x ∈ A ∧ ∀ t ∈ A ++ B, t.rel ≠ x.rel) := by
    rintro x ⟨hx, hno⟩
    exact hno x (List.mem_append_left _ hx) rfl
  constructor
  · rintro r ⟨tOrder, cOrder, hpt, hpc, rfl⟩
    constructor
    · refine (List.perm_ext_iff_of_nodup
        (diffLoop_nodup_unique (A ++ B) A hAB tOrder hpt) hBn).mpr ?_
      intro x
      exact (diffLoop_mem_unique (A ++ B) A hAB tOrder hpt x).trans (key x)
    · refine List.eq_nil_iff_forall_not_mem.mpr ?_
      intro x hx
      exact none x ((diffLoop_mem_unique A (A ++ B) hA cOrder hpc x).mp hx)
  · rintro r ⟨tOrder, cOrder, hpt, hpc, rfl⟩
    constructor
    · refine List.eq_nil_iff_forall_not_mem.mpr ?_
      intro x hx
      exact none x ((diffLoop_mem_unique A (A ++ B) hA tOrder hpt x).mp hx)
    · refine (List.perm_ext_iff_of_nodup
        (diffLoop_nodup_unique (A ++ B) A hAB cOrder hpc) hBn).mpr ?_
      intro x
      exact (diffLoop_mem_unique (A ++ B) A hAB cOrder hpc x).trans (key x)

/-- C2 at a concrete input, with the results of `Diff` evaluated. -/
theorem Diff_append_disjoint_witness :
    (Diff [⟨["w"], "a", "r1", "master"⟩]
        ([⟨["w"], "a", "r1", "master"⟩] ++
          [⟨["w"], "b", "r2", "dev"⟩, ⟨["w"], "c", "r3", "master"⟩])).1.Perm
      [⟨["w"], "b", "r2", "dev"⟩, ⟨["w"], "c", "r3", "master"⟩] ∧
    Diff ([⟨["w"], "a", "r1", "master"⟩] ++
        [⟨["w"], "b", "r2", "dev"⟩, ⟨["w"], "c", "r3", "master"⟩])
      [⟨["w"], "a", "r1", "master"⟩] =
      ([], [⟨["w"], "b", "r2", "dev"⟩, ⟨["w"], "c", "r3", "master"⟩]) :=
  ⟨((Diff_append_disjoint [⟨["w"], "a", "r1", "master"⟩]
      [⟨["w"], "b", "r2", "dev"⟩, ⟨["w"], "c", "r3", "master"⟩]
      (by decide) (by decide) (by decide)).1 _
      ⟨_, _, List.Perm.refl _, List.Perm.refl _, rfl⟩).1, by decide⟩

/-- C9: for every list `S`, unique by `rel` or not, and whatever the
enumeration order, `S.Diff(S)` returns an empty insertion list and an empty
deletion list. -/
theorem Diff_self (S : Subrepositories) (r : Subrepositories × Subrepositories) :
    DiffResult S S r → r = ([], []) := by
  rintro ⟨tOrder, cOrder, hpt, hpc, rfl⟩
  simp only [DiffWith]
  rw [diffLoop_self S tOrder hpt, diffLoop_self S cOrder hpc]

/-- C9 at a concrete input with a repeated `rel`. -/
theorem Diff_self_witness :
    Diff [⟨["w"], "a", "r1", "master"⟩, ⟨["w"], "a", "r2", "dev"⟩]
      [⟨["w"], "a", "r1", "master"⟩, ⟨["w"], "a", "r2", "dev"⟩] = ([], []) :=
  Diff_self _ _ ⟨_, _, List.Perm.refl _, List.Perm.refl _, rfl⟩

/-! ### RemoveAll and AddAll -/

theorem take_succ_set {α : Type} (l : List α) (j : Nat) (x : α) (h : j < l.length) :
    (l.set j x).take (j + 1) = l.take j ++ [x] := by
  induction l generalizing j with
  | nil => simp at h
  | cons a as ih =>
    cases j with
    | zero => simp
    | succ k =>
      simp only [List.length_cons, Nat.add_lt_add_iff_right] at h
      simp [ih k h]

theorem drop_set_lt {α : Type} (l : List α) (j n : Nat) (x : α) (h : j < n) :
    (l.set j x).drop n = l.drop n := by
  induction l generalizing j n with
  | nil => simp
  | cons a as ih =>
    cases n with
    | zero => omega
    | succ m =>
      cases j with
      | zero => simp
      | succ k => simp [ih k m (by omega)]

theorem take_succ_get {α : Type} (l : List α) (n : Nat) (x : α) (h : l[n]? = some x) :
    l.take (n + 1) = l.take n ++ [x] := by
  rw [List.take_succ, h]; rfl

theorem getElem?_of_drop_eq {α : Type} (l d : List α) (n : Nat)
    (h : l.drop n = d.drop n) : l[n]? = d[n]? := by
  have := congrArg (fun t => t[0]?) h
  simpa using this

theorem drop_succ_of_drop_eq {α : Type} (l d : List α) (n : Nat)
    (h : l.drop n = d.drop n) : l.drop (n + 1) = d.drop (n + 1) := by
  have := congrArg (fun t => t.drop 1) h
  simpa using this

/-- The invariant of the loop of `RemoveAll` after `n` iterations: the
first `j` cells hold the retained elements of `d[0:n]` and the cells from
`n` on are untouched. -/
theorem removeLoop_invariant (deleted : SbrMap) (d : Subrepositories) (n : Nat)
    (hn : n ≤ d.length) :
    let st := (List.range n).foldl (removeStep deleted) ⟨d, 0, false⟩
    st.sources.length = d.length ∧ st.j ≤ n ∧
    st.sources.take st.j = (d.take n).filter (fun x => !mapHas deleted x.rel) ∧
    st.sources.drop n = d.drop n := by
  induction n with
  | zero => simp
  | succ n ih =>
    have hlt : n < d.length := hn
    obtain ⟨hlen, hj, htake, hdrop⟩ := ih (Nat.le_of_lt hlt)
    simp only [List.range_succ, List.foldl_append, List.foldl_cons, List.foldl_nil]
    generalize (List.range n).foldl (removeStep deleted) ⟨d, 0, false⟩ = st at hlen hj htake hdrop
    have hget : st.sources[n]? = some d[n] := by
      rw [getElem?_of_drop_eq _ _ n hdrop, List.getElem?_eq_getElem hlt]
    have hdn : d.take (n + 1) = d.take n ++ [d[n]] :=
      take_succ_get d n d[n] (List.getElem?_eq_getElem hlt)
    have hdrop' := drop_succ_of_drop_eq _ _ n hdrop
    simp only [removeStep, hget]
    by_cases hdel : mapHas deleted d[n].rel = true
    · simp only [hdel, if_true]
      refine ⟨hlen, Nat.le_succ_of_le hj, ?_, hdrop'⟩
      rw [htake, hdn, List.filter_append]
      simp [hdel]
    · simp only [hdel, Bool.false_eq_true, if_false]
      by_cases hij : n = st.j
      · simp only [hij, ne_eq, not_true_eq_false, if_false]
        refine ⟨hlen, by omega, ?_, ?_⟩
        · rw [take_succ_get st.sources st.j d[n] (by rw [← hij]; exact hget),
            htake, ← hij, hdn, List.filter_append]
          simp [hdel]
        · rw [← hij]; exact hdrop'
      · simp only [ne_eq, hij, not_false_eq_true, if_true]
        have hjn : st.j < n := by omega
        refine ⟨by simpa using hlen, by omega, ?_, ?_⟩
        · rw [take_succ_set st.sources st.j d[n] (by omega), htake, hdn,
            List.filter_append]
          simp [hdel]
        · exact (drop_set_lt st.sources st.j (n + 1) d[n] (by omega)).trans hdrop'

theorem RemoveAll_fst (d del : Subrepositories) :
    (RemoveAll d del).1 = d.filter (fun x => !mapHas (indexSbr del) x.rel) := by
  have h := removeLoop_invariant (indexSbr del) d d.length (Nat.le_refl _)
  simp only [List.take_length] at h
  exact h.2.2.1

theorem AddAll_foldl (d ins : Subrepositories) (b : Bool) :
    (ins.foldl (fun st x => (st.1 ++ [x], true)) (d, b)).1 = d ++ ins := by
  induction ins generalizing d b with
  | nil => simp
  | cons x xs ih => rw [List.foldl_cons, ih]; simp

theorem AddAll_fst (d ins : Subrepositories) : (AddAll d ins).1 = d ++ ins :=
  AddAll_foldl d ins false

/-- C3: after `S.RemoveAll(R)` the list is the original `S` filtered, in
order, by "the `rel` is the `rel` of no element of `R`": it is a sublist
of `S`, and it is the stable filter of `S` by that predicate. -/
theorem RemoveAll_stable_filter (S R : Subrepositories) :
    (RemoveAll S R).1 = S.filter (fun x => decide (∀ r ∈ R, r.rel ≠ x.rel)) ∧
    (RemoveAll S R).1.Sublist S := by
  have h : (RemoveAll S R).1 = S.filter (fun x => decide (∀ r ∈ R, r.rel ≠ x.rel)) := by
    rw [RemoveAll_fst]
    apply List.filter_congr
    intro x _
    by_cases hx : mapHas (indexSbr R) x.rel = true
    · have := (indexSbr_has R x.rel).mp hx
      obtain ⟨r, hr, hrx⟩ := this
      simp only [hx, Bool.not_true]
      symm
      rw [decide_eq_false_iff_not]
      intro hall
      exact hall r hr hrx
    · have hno : ¬ ∃ r ∈ R, r.rel = x.rel := fun h => hx ((indexSbr_has R x.rel).mpr h)
      simp only [hx, Bool.not_false]
      symm
      rw [decide_eq_true_iff]
      intro r hr hrx
      exact hno ⟨r, hr, hrx⟩
  exact ⟨h, h ▸ List.filter_sublist S⟩

/-- C10: if `T` is what `AddAll(S)` makes of an empty set, then `T` is `S`
itself (appended in order, nothing removed) and `S.RemoveAll(T)` leaves `S`
empty; this holds for every `S`, so in particular for `S` unique by `rel`. -/
theorem RemoveAll_AddAll_empty (S : Subrepositories) :
    (AddAll [] S).1 = S ∧ (RemoveAll S (AddAll [] S).1).1 = [] := by
  have hT : (AddAll [] S).1 = S := by rw [AddAll_fst]; simp
  refine ⟨hT, ?_⟩
  rw [hT, RemoveAll_fst, List.filter_eq_nil_iff]
  intro x hx
  have : mapHas (indexSbr S) x.rel = true := (indexSbr_has S x.rel).mpr ⟨x, hx, rfl⟩
  simp [this]

/-! ### The scanner -/

theorem walker_eq_walkFn : walker = walkFn := rfl

theorem walkFn_dir (prjc : List Path) (p : Path) (n : String) (err : Option WalkError) :
    walkFn prjc p (some ⟨n, true⟩) err =
      if n = ".git" then some (prjc ++ [pathDir p], some WalkError.SkipDir)
      else some (prjc, none) := by
  simp [walkFn]

theorem walkFn_file (prjc : List Path) (p : Path) (n : String) (err : Option WalkError) :
    walkFn prjc p (some ⟨n, false⟩) err = some (prjc, none) := by
  simp [walkFn]

mutual
theorem walk_noLstatError (p : Path) (st : WalkState) :
    ∀ e : Entry, e.noLstatError = true →
    walk walkFn p st e =
      some (⟨st.prjc ++ ((reachability p e).filter (fun x => x.2.isGitDir)).map
                (fun x => pathDir x.1),
             st.visited ++ (reachability p e).map Prod.fst⟩,
            if e.isGitDir then some WalkError.SkipDir else none)
  | .file n, _ => by
    simp [walk, callFn, walkFn_file, reachability, Entry.isGitDir, Entry.isDir]
  | .broken _ _, h => by simp [Entry.noLstatError] at h
  | .unreadable n _, _ => by
    by_cases hn : n = ".git"
    · subst hn
      simp [walk, callFn, walkFn_dir, reachability, Entry.isGitDir, Entry.isDir, Entry.name]
    · simp [walk, callFn, walkFn_dir, reachability, Entry.isGitDir, Entry.isDir, Entry.name, hn]
  | .dir n cs, h => by
    have hcs : noLstatErrorList cs = true := by simpa [Entry.noLstatError] using h
    by_cases hn : n = ".git"
    · subst hn
      simp [walk, callFn, walkFn_dir, reachability, Entry.isGitDir, Entry.isDir, Entry.name]
    · have ih := walkList_noLstatError p ⟨st.prjc, st.visited ++ [p]⟩ cs hcs
      simp [walk, callFn, walkFn_dir, reachability, Entry.isGitDir, Entry.isDir, Entry.name,
        hn, ih]
theorem walkList_noLstatError (p : Path) (st : WalkState) :
    ∀ cs : List Entry, noLstatErrorList cs = true →
    walkList walkFn p st cs =
      some (⟨st.prjc ++ ((reachabilityList p cs).filter (fun x => x.2.isGitDir)).map
                (fun x => pathDir x.1),
             st.visited ++ (reachabilityList p cs).map Prod.fst⟩, none)
  | [], _ => by simp [walkList, reachabilityList]
  | c :: cs, h => by
    have hc : c.noLstatError = true ∧ noLstatErrorList cs = true := by
      simpa [noLstatErrorList] using h
    have h1 := walk_noLstatError (pathJoin p c.name) st c hc.1
    have h2 := fun st1 => walkList_noLstatError p st1 cs hc.2
    by_cases hg : c.isGitDir = true
    · have hd : c.isDir = true := by
        simp only [Entry.isGitDir, Bool.and_eq_true] at hg
        exact hg.1
      simp [walkList, h1, hg, hd, h2, reachabilityList, List.filter_append]
    · simp [walkList, h1, hg, h2, reachabilityList, List.filter_append]
end

mutual
/-- The walk of a tree in which `Lstat` fails on no reachable name, in closed
form: names below a directory named `.git` are never handed to `Lstat`. -/
theorem walk_reachable_ok (p : Path) (st : WalkState) :
    ∀ e : Entry, (∀ x ∈ reachability p e, x.2.lstatFails = false) →
    walk walkFn p st e =
      some (⟨st.prjc ++ ((reachability p e).filter (fun x => x.2.isGitDir)).map
                (fun x => pathDir x.1),
             st.visited ++ (reachability p e).map Prod.fst⟩,
            if e.isGitDir then some WalkError.SkipDir else none)
  | .file n, _ => by
    simp [walk, callFn, walkFn_file, reachability, Entry.isGitDir, Entry.isDir]
  | .broken n m, h => by
    have := h (p, Entry.broken n m) (by simp [reachability])
    simp [Entry.lstatFails] at this
  | .unreadable n _, _ => by
    by_cases hn : n = ".git"
    · subst hn
      simp [walk, callFn, walkFn_dir, reachability, Entry.isGitDir, Entry.isDir, Entry.name]
    · simp [walk, callFn, walkFn_dir, reachability, Entry.isGitDir, Entry.isDir, Entry.name, hn]
  | .dir n cs, h => by
    by_cases hn : n = ".git"
    · subst hn
      simp [walk, callFn, walkFn_dir, reachability, Entry.isGitDir, Entry.isDir, Entry.name]
    · have hcs : ∀ x ∈ reachabilityList p cs, x.2.lstatFails = false := by
        intro x hx
        exact h x (by simp [reachability, hn, hx])
      have ih := walkList_reachable_ok p ⟨st.prjc, st.visited ++ [p]⟩ cs hcs
      simp [walk, callFn, walkFn_dir, reachability, Entry.isGitDir, Entry.isDir, Entry.name,
        hn, ih]
/-- The loop over the entries of a directory, under the same hypothesis. -/
theorem walkList_reachable_ok (p : Path) (st : WalkState) :
    ∀ cs : List Entry, (∀ x ∈ reachabilityList p cs, x.2.lstatFails = false) →
    walkList walkFn p st cs =
      some (⟨st.prjc ++ ((reachabilityList p cs).filter (fun x => x.2.isGitDir)).map
                (fun x => pathDir x.1),
             st.visited ++ (reachabilityList p cs).map Prod.fst⟩, none)
  | [], _ => by simp [walkList, reachabilityList]
  | c :: cs, h => by
    have hc : ∀ x ∈ reachability (pathJoin p c.name) c, x.2.lstatFails = false := by
      intro x hx
      exact h x (by simp [reachabilityList, hx])
    have hcs : ∀ x ∈ reachabilityList p cs, x.2.lstatFails = false := by
      intro x hx
      exact h x (by simp [reachabilityList, hx])
    have h1 := walk_reachable_ok (pathJoin p c.name) st c hc
    have h2 := fun st1 => walkList_reachable_ok p st1 cs hcs
    by_cases hg : c.isGitDir = true
    · have hd : c.isDir = true := by
        simp only [Entry.isGitDir, Bool.and_eq_true] at hg
        exact hg.1
      simp [walkList, h1, hg, hd, h2, reachabilityList, List.filter_append]
    · simp [walkList, h1, hg, h2, reachabilityList, List.filter_append]
end

mutual
/-- When `Lstat` fails on a reachable name, the walk panics: the callback
dereferences the nil file info. -/
theorem walk_reachable_panics (p : Path) (st : WalkState) :
    ∀ e : Entry, (∃ x ∈ reachability p e, x.2.lstatFails = true) →
    walk walkFn p st e = none
  | .file n, h => by
    obtain ⟨x, hx, hb⟩ := h
    simp only [reachability, List.mem_singleton] at hx
    subst hx
    simp [Entry.lstatFails] at hb
  | .broken _ _, _ => by simp [walk, callFn, walkFn]
  | .unreadable n _, h => by
    obtain ⟨x, hx, hb⟩ := h
    simp only [reachability, List.mem_singleton] at hx
    subst hx
    simp [Entry.lstatFails] at hb
  | .dir n cs, h => by
    obtain ⟨x, hx, hb⟩ := h
    by_cases hn : n = ".git"
    · simp only [reachability, hn, if_true, List.mem_singleton] at hx
      subst hx
      simp [Entry.lstatFails] at hb
    · simp only [reachability, hn, if_false, List.mem_cons] at hx
      rcases hx with rfl | hx
      · simp [Entry.lstatFails] at hb
      · have ih := walkList_reachable_panics p ⟨st.prjc, st.visited ++ [p]⟩ cs ⟨x, hx, hb⟩
        simp [walk, callFn, walkFn_dir, hn, ih]
/-- The loop over the entries of a directory panics in the same case. -/
theorem walkList_reachable_panics (p : Path) (st : WalkState) :
    ∀ cs : List Entry, (∃ x ∈ reachabilityList p cs, x.2.lstatFails = true) →
    walkList walkFn p st cs = none
  | [], h => by
    obtain ⟨x, hx, _⟩ := h
    simp [reachabilityList] at hx
  | c :: cs, h => by
    by_cases hc : ∃ x ∈ reachability (pathJoin p c.name) c, x.2.lstatFails = true
    · simp [walkList, walk_reachable_panics (pathJoin p c.name) st c hc]
    · have hc' : ∀ x ∈ reachability (pathJoin p c.name) c, x.2.lstatFails = false := by
        intro x hx
        by_cases hb : x.2.lstatFails = true
        · exact absurd ⟨x, hx, hb⟩ hc
        · simpa using hb
      have hcs : ∃ x ∈ reachabilityList p cs, x.2.lstatFails = true := by
        obtain ⟨x, hx, hb⟩ := h
        simp only [reachabilityList, List.mem_append] at hx
        rcases hx with hx | hx
        · exact absurd ⟨x, hx, hb⟩ hc
        · exact ⟨x, hx, hb⟩
      have h1 := walk_reachable_ok (pathJoin p c.name) st c hc'
      have h2 := fun st1 => walkList_reachable_panics p st1 cs hcs
      by_cases hg : c.isGitDir = true
      · have hd : c.isDir = true := by
          simp only [Entry.isGitDir, Bool.and_eq_true] at hg
          exact hg.1
        simp [walkList, h1, hg, hd, h2]
      · simp [walkList, h1, hg, h2]
end

theorem Reachable.of_child {p : Path} {n : String} {cs : List Entry} {c' : Entry}
    (hn : n ≠ ".git") (hc : c' ∈ cs) {q : Path} {c : Entry}
    (h : Reachable (pathJoin p c'.name) c' q c) : Reachable p (Entry.dir n cs) q c := by
  induction h with
  | here => exact Reachable.child Reachable.here hn hc
  | child _ hn' hc' ih => exact Reachable.child ih hn' hc'

theorem Reachable.cases_root {p : Path} {e : Entry} {q : Path} {c : Entry}
    (h : Reachable p e q c) :
    (q = p ∧ c = e) ∨
      ∃ n cs c', e = Entry.dir n cs ∧ n ≠ ".git" ∧ c' ∈ cs ∧
        Reachable (pathJoin p c'.name) c' q c := by
  induction h with
  | here => exact Or.inl ⟨rfl, rfl⟩
  | @child q' n' cs' c hr hn' hc' ih =>
    rcases ih with ⟨hq, he⟩ | ⟨n, cs, c', he, hn, hc, hr'⟩
    · subst hq
      exact Or.inr ⟨n', cs', c, he.symm, hn', hc', Reachable.here⟩
    · exact Or.inr ⟨n, cs, c', he, hn, hc, Reachable.child hr' hn' hc'⟩

mutual
theorem mem_reachability (p : Path) (x : Path × Entry) :
    ∀ e : Entry, x ∈ reachability p e ↔ Reachable p e x.1 x.2
  | .file n => by
    simp only [reachability, List.mem_singleton]
    constructor
    · rintro rfl; exact Reachable.here
    · intro h
      rcases h.cases_root with ⟨hq, he⟩ | ⟨n, cs, c', he, _⟩
      · exact Prod.ext hq he
      · cases he
  | .broken n m => by
    simp only [reachability, List.mem_singleton]
    constructor
    · rintro rfl; exact Reachable.here
    · intro h
      rcases h.cases_root with ⟨hq, he⟩ | ⟨n, cs, c', he, _⟩
      · exact Prod.ext hq he
      · cases he
  | .unreadable n m => by
    simp only [reachability, List.mem_singleton]
    constructor
    · rintro rfl; exact Reachable.here
    · intro h
      rcases h.cases_root with ⟨hq, he⟩ | ⟨n, cs, c', he, _⟩
      · exact Prod.ext hq he
      · cases he
  | .dir n cs => by
    by_cases hn : n = ".git"
    · simp only [reachability, hn, if_true, List.mem_singleton]
      constructor
      · rintro rfl; exact Reachable.here
      · intro h
        rcases h.cases_root with ⟨hq, he⟩ | ⟨n', cs', c', he, hn', _⟩
        · exact Prod.ext hq he
        · cases he; exact absurd rfl hn'
    · simp only [reachability, hn, if_false, List.mem_cons, mem_reachabilityList p x cs]
      constructor
      · rintro (rfl | ⟨c', hc', hr⟩)
        · exact Reachable.here
        · exact Reachable.of_child hn hc' hr
      · intro h
        rcases h.cases_root with ⟨hq, he⟩ | ⟨n', cs', c', he, _, hc', hr⟩
        · exact Or.inl (Prod.ext hq he)
        · cases he; exact Or.inr ⟨c', hc', hr⟩
theorem mem_reachabilityList (p : Path) (x : Path × Entry) :
    ∀ cs : List Entry,
      x ∈ reachabilityList p cs ↔ ∃ c ∈ cs, Reachable (pathJoin p c.name) c x.1 x.2
  | [] => by simp [reachabilityList]
  | c :: cs => by
    simp only [reachabilityList, List.mem_append, mem_reachability (pathJoin p c.name) x c,
      mem_reachabilityList p x cs, List.mem_cons, exists_eq_or_imp]
end

theorem Reachable.path_extends {p : Path} {e : Entry} {q : Path} {c : Entry}
    (h : Reachable p e q c) : p <+: q := by
  induction h with
  | here => exact List.prefix_refl _
  | child _ _ _ ih => exact ih.trans (List.prefix_append _ _)

theorem Reachable.getLast {p : Path} {e : Entry} {q : Path} {c : Entry}
    (h : Reachable p e q c) (hp : p.getLast? = some e.name) :
    q.getLast? = some c.name := by
  induction h with
  | here => exact hp
  | child _ _ _ _ => simp [pathJoin]

/-- On the way from the root to a reachable entry, no directory strictly
above the entry is named `.git`. -/
theorem Reachable.not_inside_git {p : Path} {e : Entry} {q : Path} {c : Entry}
    (h : Reachable p e q c) (hp : p.getLast? = some e.name) :
    ∀ g : Path, p <+: g → g <+: q → g ≠ q → g.getLast? ≠ some ".git" := by
  induction h with
  | here =>
    intro g h1 h2 hne
    exact absurd (h2.eq_of_length (Nat.le_antisymm h2.length_le h1.length_le)) hne
  | @child q' n cs c hr hn hc ih =>
    intro g h1 h2 hne
    have hg : g <+: q' := by
      rw [pathJoin, List.prefix_concat_iff] at h2
      rcases h2 with h2 | h2
      · exact absurd h2 hne
      · exact h2
    by_cases hq : g = q'
    · subst hq
      rw [hr.getLast hp]
      simpa [Entry.name] using hn
    · exact ih g h1 hg hq

theorem pathJoin_prefix_inj {p q : Path} {a b : String}
    (ha : pathJoin p a <+: q) (hb : pathJoin p b <+: q) : a = b := by
  have h : pathJoin p a <+: pathJoin p b :=
    List.prefix_of_prefix_length_le ha hb (by simp [pathJoin])
  have h2 := h.eq_of_length (by simp [pathJoin])
  simpa [pathJoin] using h2

mutual
theorem nodup_reachability (p : Path) :
    ∀ e : Entry, e.distinctNames = true → ((reachability p e).map Prod.fst).Nodup
  | .file _, _ => by simp [reachability]
  | .broken _ _, _ => by simp [reachability]
  | .unreadable _ _, _ => by simp [reachability]
  | .dir n cs, h => by
    by_cases hn : n = ".git"
    · simp [reachability, hn]
    · have h' : (cs.map Entry.name).Nodup ∧ distinctNamesList cs = true := by
        simpa [Entry.distinctNames] using h
      simp only [reachability, hn, if_false, List.map_cons, List.nodup_cons]
      refine ⟨?_, nodup_reachabilityList p cs h'.1 h'.2⟩
      intro hmem
      obtain ⟨x, hx, hxp⟩ := List.mem_map.mp hmem
      obtain ⟨c, _, hr⟩ := (mem_reachabilityList p x cs).mp hx
      have := hr.path_extends.length_le
      rw [hxp] at this
      simp [pathJoin] at this
theorem nodup_reachabilityList (p : Path) :
    ∀ cs : List Entry, (cs.map Entry.name).Nodup → distinctNamesList cs = true →
      ((reachabilityList p cs).map Prod.fst).Nodup
  | [], _, _ => by simp [reachabilityList]
  | c :: cs, hn, h => by
    have h' : c.distinctNames = true ∧ distinctNamesList cs = true := by
      simpa [distinctNamesList] using h
    have hn' : c.name ∉ cs.map Entry.name ∧ (cs.map Entry.name).Nodup := by
      simpa using hn
    simp only [reachabilityList, List.map_append, List.nodup_append]
    refine ⟨nodup_reachability (pathJoin p c.name) c h'.1,
      nodup_reachabilityList p cs hn'.2 h'.2, ?_⟩
    intro q hq1 hq2
    obtain ⟨x, hx, hxq⟩ := List.mem_map.mp hq1
    obtain ⟨y, hy, hyq⟩ := List.mem_map.mp hq2
    have hr1 := ((mem_reachability (pathJoin p c.name) x c).mp hx).path_extends
    obtain ⟨c', hc', hr2⟩ := (mem_reachabilityList p y cs).mp hy
    have hr2' := hr2.path_extends
    rw [hxq] at hr1
    rw [hyq] at hr2'
    have hname := pathJoin_prefix_inj hr1 hr2'
    exact hn'.1 (by rw [hname]; exact List.mem_map_of_mem _ hc')
end

/-- When no entry of the list of expected visits fails `Lstat`, no
reachable entry does. -/
theorem lstat_ok_of_reachability (p : Path) (e : Entry)
    (h : (reachability p e).all (fun x => !x.2.lstatFails) = true) :
    ∀ q c, Reachable p e q c → c.lstatFails = false := by
  intro q c hr
  have hm := (mem_reachability p (q, c) e).mpr hr
  have := List.all_eq_true.mp h (q, c) hm
  simpa using this

/-- The discovery on a tree in which `Lstat` fails on no reachable name: the
walk of `scanner.Find` and of `WorkingDirSubpath` returns without error,
both emit the same list, and (1) a path is emitted exactly when it is the
parent of a directory named `.git` reachable from the root without passing
through a directory named `.git`; (2) the callback is called exactly on the
reachable entries, so on no path that has a directory named `.git` strictly
above it at or below the root; (3) when the names in every directory are
distinct, no path is emitted or visited twice. -/
theorem scanner_emits_git_parents (parent : Path) (root : Entry)
    (h : ∀ q c, Reachable (pathJoin parent root.name) root q c → c.lstatFails = false) :
    ∃ prjc visited : List Path,
      Walk walkFn parent root = some (⟨prjc, visited⟩, none) ∧
      Find parent root = some (prjc, none) ∧
      WorkingDirSubpath parent root = some prjc ∧
      (∀ d, d ∈ prjc ↔ ∃ q c,
        Reachable (pathJoin parent root.name) root q c ∧ c.isGitDir = true ∧ d = pathDir q) ∧
      (∀ q, q ∈ visited ↔ ∃ c, Reachable (pathJoin parent root.name) root q c) ∧
      (∀ q ∈ visited, ∀ g : Path, pathJoin parent root.name <+: g → g <+: q → g ≠ q →
        g.getLast? ≠ some ".git") ∧
      (root.distinctNames = true → prjc.Nodup ∧ visited.Nodup) := by
  have hw := walk_reachable_ok (pathJoin parent root.name) ⟨[], []⟩ root
    (fun x hx => h x.1 x.2 ((mem_reachability _ x root).mp hx))
  simp only [List.nil_append] at hw
  have hW : Walk walkFn parent root =
      some (⟨((reachability (pathJoin parent root.name) root).filter
                (fun x => x.2.isGitDir)).map (fun x => pathDir x.1),
             (reachability (pathJoin parent root.name) root).map Prod.fst⟩, none) := by
    unfold Walk
    rw [hw]
    by_cases hg : root.isGitDir = true
    · simp [hg]
    · simp [hg]
  have hlast : (pathJoin parent root.name).getLast? = some root.name := by
    simp [pathJoin]
  have hvis : ∀ q, q ∈ (reachability (pathJoin parent root.name) root).map Prod.fst ↔
      ∃ c, Reachable (pathJoin parent root.name) root q c := by
    intro q
    constructor
    · intro hq
      obtain ⟨x, hx, rfl⟩ := List.mem_map.mp hq
      exact ⟨x.2, (mem_reachability _ x root).mp hx⟩
    · rintro ⟨c, hc⟩
      exact List.mem_map.mpr ⟨(q, c), (mem_reachability _ (q, c) root).mpr hc, rfl⟩
  refine ⟨_, _, hW, ?_, ?_, ?_, hvis, ?_, ?_⟩
  · simp [Find, hW]
  · simp [WorkingDirSubpath, walker_eq_walkFn, hW]
  · intro d
    simp only [List.mem_map, List.mem_filter]
    constructor
    · rintro ⟨x, ⟨hx, hg⟩, rfl⟩
      exact ⟨x.1, x.2, (mem_reachability _ x root).mp hx, hg, rfl⟩
    · rintro ⟨q, c, hr, hg, rfl⟩
      exact ⟨(q, c), ⟨(mem_reachability _ _ root).mpr hr, hg⟩, rfl⟩
  · intro q hq
    obtain ⟨c, hc⟩ := (hvis q).mp hq
    exact hc.not_inside_git hlast
  · intro hd
    have hn := nodup_reachability (pathJoin parent root.name) root hd
    refine ⟨?_, hn⟩
    refine List.Nodup.map_on ?_ ((List.Nodup.of_map _ hn).filter _)
    intro x hx y hy hxy
    have hx' := List.mem_filter.mp hx
    have hy' := List.mem_filter.mp hy
    have gx : x.2.name = ".git" := by
      have := hx'.2
      simp only [Entry.isGitDir, Bool.and_eq_true, decide_eq_true_eq] at this
      exact this.2
    have gy : y.2.name = ".git" := by
      have := hy'.2
      simp only [Entry.isGitDir, Bool.and_eq_true, decide_eq_true_eq] at this
      exact this.2
    have lx := ((mem_reachability _ x root).mp hx'.1).getLast hlast
    have ly := ((mem_reachability _ y root).mp hy'.1).getLast hlast
    have ex := List.dropLast_append_getLast? _ (Option.mem_def.mpr lx)
    have ey := List.dropLast_append_getLast? _ (Option.mem_def.mpr ly)
    have hfst : x.1 = y.1 := by
      rw [← ex, ← ey, gx, gy]
      simp only [pathDir] at hxy
      rw [hxy]
    exact List.inj_on_of_nodup_map hn hx'.1 hy'.1 hfst

/-- The discovery on the tree `/w/repoA/.git/modules/x/.git` walked from
`/w`: exactly one checkout, `/w/repoA`, and the callback is called on `/w`,
`/w/repoA` and `/w/repoA/.git` only. -/
theorem scanner_emits_git_parents_witness :
    (reachability ["w"] nestedExample).all (fun x => !x.2.lstatFails) = true ∧
    Walk walkFn [] nestedExample =
      some (⟨[["w", "repoA"]], [["w"], ["w", "repoA"], ["w", "repoA", ".git"]]⟩, none) ∧
    WorkingDirSubpath [] nestedExample = some [["w", "repoA"]] ∧
    ∃ prjc visited : List Path,
      Walk walkFn [] nestedExample = some (⟨prjc, visited⟩, none) ∧
      ∀ d, d ∈ prjc ↔ ∃ q c,
        Reachable (pathJoin [] nestedExample.name) nestedExample q c ∧
          c.isGitDir = true ∧ d = pathDir q := by
  refine ⟨by decide, by decide, by decide, ?_⟩
  obtain ⟨prjc, visited, h1, _, _, h2, _⟩ :=
    scanner_emits_git_parents [] nestedExample
      (lstat_ok_of_reachability _ nestedExample (by decide))
  exact ⟨prjc, visited, h1, h2⟩

/-! ### The manifest and the workspace -/

/-- C4 at a failing input: for the one-record set whose `rel` is `a\b`
(one backslash), the writer prints `"a\\b" "r"` and `ReadFrom` reads back
the `rel` `a\\b` (two backslashes); for the `rel` `a"b` the writer prints
`"a\"b" "r"` and `ReadFrom` fails with the csv error `ErrQuote`.  This holds
whatever the Unicode tables of `strconv.IsPrint` are. -/
theorem manifest_roundtrip_breaks_on_escapes (table : Char → Bool) :
    WriteSubrepositoryTo table [⟨["w"], "a\\b", "r", "master"⟩] =
      "\"a\\\\b\" \"r\"\n".toList ∧
    ReadFrom ["w"] (WriteSubrepositoryTo table [⟨["w"], "a\\b", "r", "master"⟩]) =
      some (some [⟨["w"], "a\\\\b", "r", "master"⟩], none) ∧
    WriteSubrepositoryTo table [⟨["w"], "a\"b", "r", "master"⟩] =
      "\"a\\\"b\" \"r\"\n".toList ∧
    ReadFrom ["w"] (WriteSubrepositoryTo table [⟨["w"], "a\"b", "r", "master"⟩]) =
      some (none, some (ReadError.csv CsvError.ErrQuote)) := by
  have h1 : WriteSubrepositoryTo table [⟨["w"], "a\\b", "r", "master"⟩] =
      "\"a\\\\b\" \"r\"\n".toList := rfl
  have h2 : WriteSubrepositoryTo table [⟨["w"], "a\"b", "r", "master"⟩] =
      "\"a\\\"b\" \"r\"\n".toList := rfl
  refine ⟨h1, ?_, h2, ?_⟩
  · rw [h1]; decide
  · rw [h2]; decide

/-- C6 at a failing input: on the manifest `a r` / `b c d e f`, whose second
record has five fields, `ReadFrom` returns an error together with the record
parsed before it, and `FileSubrepositories` of a new workspace stores and
returns that record after printing the "Skipping" message: the declared set
is not empty. -/
theorem FileSubrepositories_keeps_records_before_invalid :
    ReadFrom ["w"] "a r\nb c d e f\n".toList =
      some (some [⟨["w"], "a", "r", "master"⟩], some (ReadError.invalidRecord 1 5)) ∧
    FileSubrepositories (NewWorkspace ["w"] true)
        (sampleWorld (.text "a r\nb c d e f\n".toList)) =
      .ok (some [⟨["w"], "a", "r", "master"⟩],
        { wd := ["w"], wdIsAbs := true, sbrfilename := ".sbr",
          fileSbr := some [⟨["w"], "a", "r", "master"⟩], wdSbr := none },
        [Event.openManifest, Event.printInvalidSkipping]) := by
  constructor <;> decide

/-- C7 at two failing inputs, in a world whose manifest declares `b` and
whose disk holds the checkout `a`: (1) when `WorkingDirSubrepositories` is
called first, the first call of `FileSubrepositories` does not open the
manifest and returns the nil slice; (2) two calls of `FileSubrepositories`
in a row open and read the manifest twice. -/
theorem FileSubrepositories_guard_tests_wdSbr :
    runCalls (sampleWorld (.text "b r2\n".toList)) [.WorkingDir, .File]
        (NewWorkspace ["w"] true) =
      .ok [(some [⟨["w"], "a", "r", "master"⟩], [Event.walkDisk]), (none, [])] ∧
    runCalls (sampleWorld (.text "b r2\n".toList)) [.File, .File]
        (NewWorkspace ["w"] true) =
      .ok [(some [⟨["w"], "b", "r2", "master"⟩], [Event.openManifest]),
           (some [⟨["w"], "b", "r2", "master"⟩], [Event.openManifest])] := by
  constructor <;> decide

/-- The sibling accessor caches: after a call of `WorkingDirSubrepositories`
that returned, a further call returns the same slice and causes no event. -/
theorem WorkingDirSubrepositories_cached (x : Workspace) (w : World)
    (s : Option Subrepositories) (x1 : Workspace) (ev : List Event)
    (h : WorkingDirSubrepositories x w = .ok (s, x1, ev)) :
    WorkingDirSubrepositories x1 w = .ok (s, x1, []) := by
  by_cases hx : x.wdSbr = none
  · cases hp : WorkingDirSubpath w.parent w.root with
    | none => simp [WorkingDirSubrepositories, hx, hp] at h
    | some prjs =>
      cases hl : wdSbrLoop x w prjs [] with
      | ok l =>
        simp only [WorkingDirSubrepositories, hx, if_true, hp, hl, Outcome.ok.injEq,
          Prod.mk.injEq] at h
        obtain ⟨hs, hx1, _⟩ := h
        subst hx1
        subst hs
        simp [WorkingDirSubrepositories]
      | panic => simp [WorkingDirSubrepositories, hx, hp, hl] at h
      | fatal m => simp [WorkingDirSubrepositories, hx, hp, hl] at h
      | outOfFuel => simp [WorkingDirSubrepositories, hx, hp, hl] at h
  · simp only [WorkingDirSubrepositories, hx, if_false, Outcome.ok.injEq,
      Prod.mk.injEq] at h
    obtain ⟨hs, hx1, _⟩ := h
    subst hx1
    subst hs
    simp [WorkingDirSubrepositories, hx]

/-- The loop of `ReadFrom` returns an error as soon as a record has another
number of fields than 1, 2, 3 or 4. -/
theorem readRecords_invalid (wd : Path) (records : List (List String))
    (h : ∃ r ∈ records, r.length = 0 ∨ 5 ≤ r.length) :
    ∀ (i : Nat) (b : String) (sbr : Subrepositories),
      ∃ j n, (readRecords wd records i b sbr).2 = some (ReadError.invalidRecord j n) := by
  induction records with
  | nil => simp at h
  | cons r rs ih =>
    intro i b sbr
    match r, h with
    | [], _ => exact ⟨i, 0, rfl⟩
    | [a], h =>
      have : ∃ r ∈ rs, r.length = 0 ∨ 5 ≤ r.length := by simpa using h
      exact ih this _ _ _
    | [a, c], h =>
      have : ∃ r ∈ rs, r.length = 0 ∨ 5 ≤ r.length := by simpa using h
      exact ih this _ _ _
    | [a, c, d], h =>
      have : ∃ r ∈ rs, r.length = 0 ∨ 5 ≤ r.length := by simpa using h
      exact ih this _ _ _
    | [a, c, d, e], h =>
      have : ∃ r ∈ rs, r.length = 0 ∨ 5 ≤ r.length := by simpa using h
      exact ih this _ _ _
    | a :: c :: d :: e :: f :: l, _ => exact ⟨i, _, rfl⟩

/-! ### The csv reader never runs out of fuel -/

theorem takeWhile_dropWhile_length {α : Type} (p : α → Bool) (l : List α) :
    (l.takeWhile p).length + (l.dropWhile p).length = l.length := by
  induction l with
  | nil => simp
  | cons a as ih =>
    by_cases h : p a = true
    · simp only [List.takeWhile_cons, List.dropWhile_cons, h, if_true, List.length_cons]
      omega
    · simp [List.takeWhile_cons, List.dropWhile_cons, h]

theorem dropLast_length_le {α : Type} (l : List α) : l.dropLast.length ≤ l.length := by
  simp

/-- A line read is not longer than what it consumes, and consumes something. -/
theorem readLine_length (input line rest : List Char)
    (h : readLine input = some (line, rest)) :
    line.length + rest.length ≤ input.length ∧ rest.length < input.length := by
  unfold readLine at h
  by_cases hi : input = []
  · simp [hi] at h
  · have hlen := takeWhile_dropWhile_length (fun c => c != '\n') input
    have hpos : 0 < input.length := List.length_pos.mpr hi
    simp only [hi, if_false] at h
    cases hd : input.dropWhile (fun c => c != '\n') with
    | nil =>
      rw [hd] at h hlen
      simp only [Option.some.injEq, Prod.mk.injEq] at h
      obtain ⟨h1, h2⟩ := h
      subst h1; subst h2
      simp only [List.length_nil, Nat.add_zero] at hlen ⊢
      refine ⟨?_, hpos⟩
      split
      · have := dropLast_length_le (input.takeWhile (fun c => c != '\n'))
        omega
      · omega
    | cons c cs =>
      rw [hd] at h hlen
      simp only [Option.some.injEq, Prod.mk.injEq] at h
      obtain ⟨h1, h2⟩ := h
      subst h1; subst h2
      simp only [List.length_cons, List.length_append, List.length_nil] at hlen ⊢
      constructor
      · split
        · have := dropLast_length_le (input.takeWhile (fun c => c != '\n'))
          omega
        · omega
      · omega

/-- With more fuel than characters left, `parseField` returns, and the input
it leaves is not longer than the input after the current line. -/
theorem parseField_total : ∀ (fuel : Nat) (st : Option (List Char))
    (line rest : List Char) (fields : List String),
    line.length + rest.length < fuel →
    ∃ r, parseField fuel st line rest fields = some r ∧
      ∀ record rest1, r = .ok (record, rest1) → rest1.length ≤ rest.length := by
  intro fuel
  induction fuel with
  | zero => intro st line rest fields h; omega
  | succ fuel ih =>
    intro st line rest fields h
    cases st with
    | none =>
      unfold parseField
      split
      · rename_i line1
        exact ih _ _ _ _ (by simp only [List.length_cons] at h; omega)
      · split
        · dsimp only
          split
          · exact ⟨_, rfl, by intro _ _ hh; cases hh⟩
          · refine ⟨_, rfl, ?_⟩
            intro record rest1 hh
            simp only [Except.ok.injEq, Prod.mk.injEq] at hh
            rw [← hh.2]
        · rename_i c line1 hd
          have hlen := takeWhile_dropWhile_length (fun c => c != ' ') line
          rw [hd] at hlen
          simp only [List.length_cons] at hlen
          dsimp only
          split
          · exact ⟨_, rfl, by intro _ _ hh; cases hh⟩
          · exact ih _ _ _ _ (by omega)
    | some buf =>
      unfold parseField
      split
      · rename_i c after hd
        have hlen := takeWhile_dropWhile_length (fun c => c != '"') line
        rw [hd] at hlen
        simp only [List.length_cons] at hlen
        dsimp only
        split
        · exact ih _ _ _ _ (by simp only [List.length_cons] at hlen; omega)
        · exact ih _ _ _ _ (by simp only [List.length_cons] at hlen; omega)
        · split
          · refine ⟨_, rfl, ?_⟩
            intro record rest1 hh
            simp only [Except.ok.injEq, Prod.mk.injEq] at hh
            rw [← hh.2]
          · exact ⟨_, rfl, by intro _ _ hh; cases hh⟩
      · split
        · rename_i hne
          have hpos : 0 < line.length := List.length_pos.mpr hne
          split
          · rename_i line1 rest1 hr
            have hl := readLine_length _ _ _ hr
            obtain ⟨r, h1, h2⟩ := ih (some (buf ++ line)) line1 rest1 fields (by omega)
            exact ⟨r, h1, fun record rest2 hh => (h2 record rest2 hh).trans (by omega)⟩
          · obtain ⟨r, h1, h2⟩ := ih (some (buf ++ line)) [] [] fields (by simp; omega)
            exact ⟨r, h1, fun record rest2 hh => (h2 record rest2 hh).trans (by simp)⟩
        · exact ⟨_, rfl, by intro _ _ hh; cases hh⟩

theorem readAllLoop_total : ∀ (fuel : Nat) (input : List Char)
    (records : List (List String)), input.length < fuel →
    ∃ r, readAllLoop fuel input records = some r := by
  intro fuel
  induction fuel with
  | zero => intro input records h; omega
  | succ fuel ih =>
    intro input records h
    unfold readAllLoop
    split
    · exact ⟨_, rfl⟩
    · rename_i line rest hr
      have hl := readLine_length _ _ _ hr
      split
      · exact ih _ _ (by omega)
      · split
        · exact ih _ _ (by omega)
        · obtain ⟨r, h1, h2⟩ :=
            parseField_total (line.length + rest.length + 1) none line rest [] (by omega)
          rw [h1]
          match r, h2 with
          | .error e, _ => exact ⟨_, rfl⟩
          | .ok (record, rest1), h2 =>
            have := h2 record rest1 rfl
            exact ih _ _ (by omega)

/-- The csv model always returns: the fuel given by `ReadAll` suffices. -/
theorem ReadAll_total (input : List Char) : ∃ r, ReadAll input = some r :=
  readAllLoop_total _ input [] (Nat.lt_succ_self _)

/-- The method `ReadFrom` always returns. -/
theorem ReadFrom_total (wd : Path) (r : List Char) : ∃ res, ReadFrom wd r = some res := by
  obtain ⟨a, ha⟩ := ReadAll_total r
  unfold ReadFrom
  rw [ha]
  cases a with
  | error e => exact ⟨_, rfl⟩
  | ok records => exact ⟨_, rfl⟩

/-! ### The round trip of the manifest on plain texts -/

theorem takeWhile_ne_append (q : Char) (x t : List Char) (hx : ∀ c ∈ x, c ≠ q) :
    (x ++ q :: t).takeWhile (fun c => c != q) = x := by
  induction x with
  | nil => simp
  | cons a as ih =>
    have ha : a ≠ q := hx a (List.mem_cons_self _ _)
    have := ih (fun c hc => hx c (List.mem_cons_of_mem _ hc))
    simp [List.takeWhile_cons, ha, this]

theorem dropWhile_ne_append (q : Char) (x t : List Char) (hx : ∀ c ∈ x, c ≠ q) :
    (x ++ q :: t).dropWhile (fun c => c != q) = q :: t := by
  induction x with
  | nil => simp
  | cons a as ih =>
    have ha : a ≠ q := hx a (List.mem_cons_self _ _)
    have := ih (fun c hc => hx c (List.mem_cons_of_mem _ hc))
    simp [List.dropWhile_cons, ha, this]

theorem parseField_quoted_space (fuel : Nat) (x line1 rest : List Char)
    (fields : List String) (hx : ∀ c ∈ x, c ≠ '"') :
    parseField (fuel + 2) none ('"' :: (x ++ '"' :: ' ' :: line1)) rest fields =
      parseField fuel none line1 rest (fields ++ [String.mk x]) := by
  rw [parseField, parseField]
  simp [dropWhile_ne_append '"' x _ hx, takeWhile_ne_append '"' x _ hx]

theorem parseField_quoted_eol (fuel : Nat) (x rest : List Char)
    (fields : List String) (hx : ∀ c ∈ x, c ≠ '"') :
    parseField (fuel + 2) none ('"' :: (x ++ ['"', '\n'])) rest fields =
      some (.ok (fields ++ [String.mk x], rest)) := by
  rw [parseField, parseField]
  simp [dropWhile_ne_append '"' x _ hx, takeWhile_ne_append '"' x _ hx, lengthNL]

theorem readLine_line (body rest : List Char) (h1 : ∀ c ∈ body, c ≠ '\n')
    (h2 : body.getLast? ≠ some '\r') :
    readLine (body ++ '\n' :: rest) = some (body ++ ['\n'], rest) := by
  unfold readLine
  simp [takeWhile_ne_append '\n' body rest h1, dropWhile_ne_append '\n' body rest h1, h2]

/-- One turn of the loop of `ReadAll` on a line `"x" "y"`. -/
theorem readAllLoop_record_line (fuel : Nat) (x y rest : List Char)
    (records : List (List String))
    (hx : ∀ c ∈ x, c ≠ '"' ∧ c ≠ '\n') (hy : ∀ c ∈ y, c ≠ '"' ∧ c ≠ '\n') :
    readAllLoop (fuel + 1)
        (('"' :: (x ++ '"' :: ' ' :: '"' :: (y ++ ['"']))) ++ '\n' :: rest) records =
      readAllLoop fuel rest (records ++ [[String.mk x, String.mk y]]) := by
  have hbody : ∀ c ∈ '"' :: (x ++ '"' :: ' ' :: '"' :: (y ++ ['"'])), c ≠ '\n' := by
    intro c hc
    simp only [List.mem_cons, List.mem_append, List.mem_singleton, List.not_mem_nil,
      or_false] at hc
    rcases hc with rfl | h | rfl | rfl | rfl | h | rfl
    · decide
    · exact (hx c h).2
    · decide
    · decide
    · decide
    · exact (hy c h).2
    · decide
  have hlast : ('"' :: (x ++ '"' :: ' ' :: '"' :: (y ++ ['"']))).getLast? ≠ some '\r' := by
    have : '"' :: (x ++ '"' :: ' ' :: '"' :: (y ++ ['"'])) =
        ('"' :: (x ++ '"' :: ' ' :: '"' :: y)) ++ ['"'] := by simp
    rw [this, List.getLast?_append]
    simp
  rw [readAllLoop, readLine_line _ rest hbody hlast]
  have hparse : ∀ k, parseField (k + 4) none
      ('"' :: (x ++ '"' :: ' ' :: '"' :: (y ++ ['"'])) ++ ['\n']) rest [] =
      some (.ok ([String.mk x, String.mk y], rest)) := by
    intro k
    have e : '"' :: (x ++ '"' :: ' ' :: '"' :: (y ++ ['"'])) ++ ['\n'] =
        '"' :: (x ++ '"' :: ' ' :: ('"' :: (y ++ ['"', '\n']))) := by simp
    rw [e, parseField_quoted_space (k + 2) x _ rest [] (fun c hc => (hx c hc).1),
      parseField_quoted_eol k y rest _ (fun c hc => (hy c hc).1)]
    simp
  have hfuel : ∃ k, ('"' :: (x ++ '"' :: ' ' :: '"' :: (y ++ ['"'])) ++ ['\n']).length +
      rest.length + 1 = k + 4 := ⟨x.length + y.length + rest.length + 3, by simp; omega⟩
  obtain ⟨k, hk⟩ := hfuel
  simp only [hk, hparse k]
  simp [lengthNL]
  intro h
  split at h <;> omega

/-- One turn of the loop of `ReadAll` on a line `"x"`. -/
theorem readAllLoop_header_line (fuel : Nat) (x rest : List Char)
    (records : List (List String)) (hx : ∀ c ∈ x, c ≠ '"' ∧ c ≠ '\n') :
    readAllLoop (fuel + 1) (('"' :: (x ++ ['"'])) ++ '\n' :: rest) records =
      readAllLoop fuel rest (records ++ [[String.mk x]]) := by
  have hbody : ∀ c ∈ '"' :: (x ++ ['"']), c ≠ '\n' := by
    intro c hc
    simp only [List.mem_cons, List.mem_append, List.mem_singleton, List.not_mem_nil,
      or_false] at hc
    rcases hc with rfl | h | rfl
    · decide
    · exact (hx c h).2
    · decide
  have hlast : ('"' :: (x ++ ['"'])).getLast? ≠ some '\r' := by
    have : '"' :: (x ++ ['"']) = ('"' :: x) ++ ['"'] := by simp
    rw [this, List.getLast?_append]
    simp
  rw [readAllLoop, readLine_line _ rest hbody hlast]
  have hparse : ∀ k, parseField (k + 2) none ('"' :: (x ++ ['"']) ++ ['\n']) rest [] =
      some (.ok ([String.mk x], rest)) := by
    intro k
    have e : '"' :: (x ++ ['"']) ++ ['\n'] = '"' :: (x ++ ['"', '\n']) := by simp
    rw [e, parseField_quoted_eol k x rest _ (fun c hc => (hx c hc).1)]
    simp
  have hfuel : ∃ k, ('"' :: (x ++ ['"']) ++ ['\n']).length + rest.length + 1 = k + 2 :=
    ⟨x.length + rest.length + 2, by simp; omega⟩
  obtain ⟨k, hk⟩ := hfuel
  simp only [hk, hparse k]
  simp [lengthNL]
  intro h
  split at h <;> omega

theorem IsPrint_newline (table : Char → Bool) : IsPrint table '\n' = false := rfl

theorem Plain.chars {table : Char → Bool} {s : String} (h : Plain table s) :
    ∀ c ∈ s.toList, c ≠ '"' ∧ c ≠ '\n' := by
  intro c hc
  refine ⟨(h c hc).1, ?_⟩
  intro hn
  have hp := (h c hc).2.2
  rw [hn, IsPrint_newline] at hp
  cases hp

theorem flatMap_escapedRune_plain (table : Char → Bool) (l : List Char)
    (h : ∀ c ∈ l, c ≠ '"' ∧ c ≠ '\\' ∧ IsPrint table c = true) :
    l.flatMap (escapedRune table) = l := by
  induction l with
  | nil => rfl
  | cons a as ih =>
    obtain ⟨h1, h2, h3⟩ := h a (List.mem_cons_self _ _)
    have := ih (fun c hc => h c (List.mem_cons_of_mem _ hc))
    simp [List.flatMap_cons, escapedRune, h1, h2, h3, this]

/-- A plain text is printed by `%q` as it is, between two quotes. -/
theorem Quote_plain (table : Char → Bool) (s : String) (h : Plain table s) :
    Quote table s = '"' :: (s.toList ++ ['"']) := by
  unfold Quote
  rw [flatMap_escapedRune_plain table s.toList h]
  simp

theorem String_mk_toList (s : String) : String.mk s.toList = s := rfl

/-- Reading what `writeLoop` wrote for plain records gives the expected csv
records, whenever the fuel exceeds the length of the text. -/
theorem readAllLoop_writeLoop (table : Char → Bool) :
    ∀ (ds : Subrepositories) (pbranch : String) (fuel : Nat)
      (records : List (List String)),
      (∀ d ∈ ds, PlainSbr table d) → (writeLoop table ds pbranch).length < fuel →
      readAllLoop fuel (writeLoop table ds pbranch) records =
        some (.ok (records ++ expectedRecords ds pbranch)) := by
  intro ds
  induction ds with
  | nil =>
    intro pbranch fuel records _ hf
    cases fuel with
    | zero => omega
    | succ f => simp [writeLoop, readAllLoop, readLine, expectedRecords]
  | cons d ds ih =>
    intro pbranch fuel records hp hf
    obtain ⟨hrel, hremote, hbranch⟩ := hp d (List.mem_cons_self _ _)
    have hrest : ∀ e ∈ ds, PlainSbr table e := fun e he => hp e (List.mem_cons_of_mem _ he)
    have hline : Quote table d.rel ++ [' '] ++ Quote table d.remote ++ ['\n'] ++
        writeLoop table ds d.branch =
        ('"' :: (d.rel.toList ++ '"' :: ' ' :: '"' :: (d.remote.toList ++ ['"']))) ++
          '\n' :: writeLoop table ds d.branch := by
      rw [Quote_plain table _ hrel, Quote_plain table _ hremote]
      simp
    by_cases hb : d.branch = pbranch
    · have hw : writeLoop table (d :: ds) pbranch =
          ('"' :: (d.rel.toList ++ '"' :: ' ' :: '"' :: (d.remote.toList ++ ['"']))) ++
            '\n' :: writeLoop table ds d.branch := by
        rw [← hline]
        simp [writeLoop, hb]
      rw [hw] at hf ⊢
      obtain ⟨f, rfl⟩ : ∃ f, fuel = f + 1 := ⟨fuel - 1, by omega⟩
      rw [readAllLoop_record_line f _ _ _ _ hrel.chars hremote.chars,
        ih d.branch f _ hrest (by simp at hf; omega)]
      simp [expectedRecords, hb, String_mk_toList]
    · have hw : writeLoop table (d :: ds) pbranch =
          ('"' :: (d.branch.toList ++ ['"'])) ++ '\n' ::
          (('"' :: (d.rel.toList ++ '"' :: ' ' :: '"' :: (d.remote.toList ++ ['"']))) ++
            '\n' :: writeLoop table ds d.branch) := by
        rw [← hline]
        simp [writeLoop, hb, Quote_plain table _ hbranch]
      rw [hw] at hf ⊢
      obtain ⟨f, rfl⟩ : ∃ f, fuel = f + 2 := ⟨fuel - 2, by simp at hf; omega⟩
      rw [readAllLoop_header_line (f + 1) _ _ _ hbranch.chars,
        readAllLoop_record_line f _ _ _ _ hrel.chars hremote.chars,
        ih d.branch f _ hrest (by simp at hf; omega)]
      simp [expectedRecords, hb, String_mk_toList]

/-- The loop of `ReadFrom` on the expected records rebuilds the records
written, in the order written, when both start from the same branch. -/
theorem readRecords_expectedRecords (wd : Path) :
    ∀ (ds : Subrepositories) (pbranch : String) (i : Nat) (sbr : Subrepositories),
      readRecords wd (expectedRecords ds pbranch) i pbranch sbr =
        (sbr ++ ds.map (withWd wd), none) := by
  intro ds
  induction ds with
  | nil => intro pbranch i sbr; simp [expectedRecords, readRecords]
  | cons d ds ih =>
    intro pbranch i sbr
    by_cases hb : d.branch = pbranch
    · have hj := ih d.branch (i + 1) (sbr ++ [⟨wd, d.rel, d.remote, d.branch⟩])
      simp only [expectedRecords, hb, ne_eq, not_true_eq_false, if_false, List.nil_append,
        List.singleton_append, readRecords]
      rw [hb] at hj
      rw [hj]
      simp [withWd, hb]
    · have hj := ih d.branch (i + 1 + 1) (sbr ++ [⟨wd, d.rel, d.remote, d.branch⟩])
      simp only [expectedRecords, hb, ne_eq, not_false_eq_true, if_true,
        List.singleton_append, List.cons_append, List.nil_append, readRecords]
      rw [hj]
      simp [withWd]

/-- Whatever the order of the plain records `ds`, `ReadFrom` reads back
from the text `writeLoop` wrote for them the same records, in that order. -/
theorem ReadFrom_writeLoop (table : Char → Bool) (wd : Path) (ds : Subrepositories)
    (hp : ∀ d ∈ ds, PlainSbr table d) :
    ReadFrom wd (writeLoop table ds "master") = some (some (ds.map (withWd wd)), none) := by
  unfold ReadFrom ReadAll
  rw [readAllLoop_writeLoop table ds "master" _ [] hp (Nat.lt_succ_self _)]
  simp [readRecords_expectedRecords wd ds "master" 0 []]

/-! ### The order of `Less` and the result of the sort -/

theorem char_toNat_inj {a b : Char} (h : a.toNat = b.toNat) : a = b :=
  Char.ext (UInt32.eq_of_val_eq (Fin.ext h))

theorem ltChars_irrefl : ∀ a : List Char, ltChars a a = false
  | [] => rfl
  | a :: as => by simp [ltChars, ltChars_irrefl as]

theorem ltChars_asymm : ∀ a b : List Char, ltChars a b = true → ltChars b a = false
  | [], [] => by simp [ltChars]
  | [], _ :: _ => by simp [ltChars]
  | _ :: _, [] => by simp [ltChars]
  | a :: as, b :: bs => by
    intro h
    simp only [ltChars] at h ⊢
    by_cases h1 : a.toNat < b.toNat
    · have h2 : ¬ b.toNat < a.toNat := by omega
      have h3 : ¬ b.toNat = a.toNat := by omega
      simp [h2, h3]
    · by_cases h2 : a.toNat = b.toNat
      · simp [h2] at h
        have := ltChars_asymm as bs h
        simp [h2, this]
      · simp [h1, h2] at h

theorem ltChars_total : ∀ a b : List Char, a ≠ b → ltChars a b = true ∨ ltChars b a = true
  | [], [] => by simp
  | [], _ :: _ => by simp [ltChars]
  | _ :: _, [] => by simp [ltChars]
  | a :: as, b :: bs => by
    intro h
    simp only [ltChars]
    by_cases h1 : a.toNat < b.toNat
    · simp [h1]
    · by_cases h2 : b.toNat < a.toNat
      · simp [h2]
      · have h3 : a.toNat = b.toNat := by omega
        have hab : a = b := char_toNat_inj h3
        have hne : as ≠ bs := by
          intro e
          exact h (by rw [hab, e])
        have := ltChars_total as bs hne
        simpa [h1, h2, h3] using this

theorem ltChars_trans : ∀ a b c : List Char,
    ltChars a b = true → ltChars b c = true → ltChars a c = true
  | _, _, [] => by
    intro _ h
    cases ‹List Char› <;> simp [ltChars] at h
  | _, [], _ :: _ => by
    intro h
    simp [ltChars] at h
  | [], _ :: _, _ :: _ => by simp [ltChars]
  | a :: as, b :: bs, c :: cs => by
    intro h1 h2
    simp only [ltChars] at h1 h2 ⊢
    by_cases hab : a.toNat < b.toNat
    · by_cases hbc : b.toNat < c.toNat
      · have : a.toNat < c.toNat := by omega
        simp [this]
      · by_cases hbc2 : b.toNat = c.toNat
        · have : a.toNat < c.toNat := by omega
          simp [this]
        · simp [hbc, hbc2] at h2
    · by_cases hab2 : a.toNat = b.toNat
      · simp [hab2] at h1
        by_cases hbc : b.toNat < c.toNat
        · have : a.toNat < c.toNat := by omega
          simp [this]
        · by_cases hbc2 : b.toNat = c.toNat
          · simp [hbc2] at h2
            have h3 := ltChars_trans as bs cs h1 h2
            have e : a.toNat = c.toNat := by omega
            simp [e, h3]
          · simp [hbc, hbc2] at h2
      · simp [hab, hab2] at h1

theorem strLess_irrefl (a : String) : strLess a a = false := ltChars_irrefl _

theorem strLess_asymm (a b : String) (h : strLess a b = true) : strLess b a = false :=
  ltChars_asymm _ _ h

theorem strLess_total (a b : String) (h : a ≠ b) :
    strLess a b = true ∨ strLess b a = true :=
  ltChars_total _ _ (fun e => h (String.ext e))

theorem strLess_trans (a b c : String) (h1 : strLess a b = true)
    (h2 : strLess b c = true) : strLess a c = true :=
  ltChars_trans _ _ _ h1 h2

theorem strLess_ne (a b : String) (h : strLess a b = true) : a ≠ b := by
  intro e
  rw [e, strLess_irrefl] at h
  cases h

theorem Less_asymm (a b : Subrepository) (h : Less a b = true) : Less b a = false := by
  unfold Less at h ⊢
  by_cases hb : a.branch = b.branch
  · simp only [hb, if_true] at h ⊢
    exact strLess_asymm _ _ h
  · have hb2 : ¬ b.branch = a.branch := fun e => hb e.symm
    simp only [hb, hb2, if_false] at h ⊢
    exact strLess_asymm _ _ h

theorem Less_total (a b : Subrepository) (h : a.rel ≠ b.rel) :
    Less a b = true ∨ Less b a = true := by
  unfold Less
  by_cases hb : a.branch = b.branch
  · simp only [hb, if_true]
    exact strLess_total _ _ h
  · have hb2 : ¬ b.branch = a.branch := fun e => hb e.symm
    simp only [hb, hb2, if_false]
    exact strLess_total _ _ hb

theorem Less_trans (a b c : Subrepository) (h1 : Less a b = true) (h2 : Less b c = true) :
    Less a c = true := by
  unfold Less at h1 h2 ⊢
  by_cases hab : a.branch = b.branch
  · by_cases hbc : b.branch = c.branch
    · simp only [hab, hbc, if_true] at h1 h2 ⊢
      exact strLess_trans _ _ _ h1 h2
    · simp only [hab, hbc, if_true, if_false] at h1 h2 ⊢
      exact h2
  · by_cases hbc : b.branch = c.branch
    · simp only [hab, if_false] at h1
      rw [← hbc]
      simp only [hab, if_false]
      exact h1
    · simp only [hab, hbc, if_false] at h1 h2
      have h3 := strLess_trans _ _ _ h1 h2
      have hac : ¬ a.branch = c.branch := strLess_ne _ _ h3
      simp only [hac, if_false]
      exact h3

/-- Not `Less b a` means `Less a b` or the same sort key. -/
theorem Less_false_iff (a b : Subrepository) :
    Less b a = false ↔ Less a b = true ∨ (a.branch = b.branch ∧ a.rel = b.rel) := by
  constructor
  · intro h
    by_cases hk : a.branch = b.branch ∧ a.rel = b.rel
    · exact Or.inr hk
    · left
      unfold Less at h ⊢
      by_cases hb : a.branch = b.branch
      · have hr : a.rel ≠ b.rel := fun e => hk ⟨hb, e⟩
        simp only [hb, if_true] at h ⊢
        rcases strLess_total _ _ hr with h1 | h1
        · exact h1
        · rw [h1] at h; cases h
      · have hb2 : ¬ b.branch = a.branch := fun e => hb e.symm
        simp only [hb, hb2, if_false] at h ⊢
        rcases strLess_total _ _ hb with h1 | h1
        · exact h1
        · rw [h1] at h; cases h
  · rintro (h | ⟨hb, hr⟩)
    · exact Less_asymm a b h
    · unfold Less
      simp [hb, hr, strLess_irrefl]

theorem Less_congr_left (a b c : Subrepository) (hb : a.branch = b.branch)
    (hr : a.rel = b.rel) : Less a c = Less b c := by
  unfold Less
  rw [hb, hr]

theorem Less_congr_right (a b c : Subrepository) (hb : a.branch = b.branch)
    (hr : a.rel = b.rel) : Less c a = Less c b := by
  unfold Less
  rw [hb, hr]

theorem notLess_trans (a b c : Subrepository) (h1 : Less b a = false)
    (h2 : Less c b = false) : Less c a = false := by
  rcases (Less_false_iff a b).mp h1 with h1 | ⟨hb1, hr1⟩
  · rcases (Less_false_iff b c).mp h2 with h2 | ⟨hb2, hr2⟩
    · exact Less_asymm _ _ (Less_trans _ _ _ h1 h2)
    · rw [← Less_congr_left b c a hb2 hr2]
      exact Less_asymm _ _ h1
  · rw [Less_congr_right a b c hb1 hr1]
    exact h2

theorem notLess_total (a b : Subrepository) : Less b a = false ∨ Less a b = false := by
  by_cases h : Less a b = true
  · exact Or.inl (Less_asymm a b h)
  · exact Or.inr (by simpa using h)

/-- The insertion sort is one of the results `sort.Sort` can give. -/
theorem sortSbr_isSorted (l : Subrepositories) : IsSorted l (sortSbr l) := by
  haveI : IsTotal Subrepository (fun a b => Less b a = false) := ⟨notLess_total⟩
  haveI : IsTrans Subrepository (fun a b => Less b a = false) :=
    ⟨fun a b c h1 h2 => notLess_trans a b c h1 h2⟩
  exact ⟨List.perm_insertionSort _ l, List.sorted_insertionSort _ l⟩

/-- For a set unique by `rel` the sort has one result only. -/
theorem IsSorted_unique (S r1 r2 : Subrepositories) (hu : UniqueRel S)
    (h1 : IsSorted S r1) (h2 : IsSorted S r2) : r1 = r2 := by
  have strict : ∀ r, IsSorted S r → r.Pairwise (fun a b => Less a b = true) := by
    intro r hr
    have hn : (r.map (·.rel)).Nodup := (hr.1.map _).nodup_iff.mpr hu
    have hp : r.Pairwise (fun a b => a.rel ≠ b.rel) := by
      unfold List.Nodup at hn
      exact List.pairwise_map.mp hn
    refine (hr.2.and hp).imp ?_
    rintro a b ⟨hle, hne⟩
    rcases Less_total a b hne with h | h
    · exact h
    · rw [h] at hle; cases hle
  haveI : IsAntisymm Subrepository (fun a b => Less a b = true) :=
    ⟨fun a b hab hba => by rw [Less_asymm a b hab] at hba; cases hba⟩
  exact List.eq_of_perm_of_sorted (h1.1.trans h2.1.symm) (strict r1 h1) (strict r2 h2)

theorem IsSorted_of_perm (S S' r : Subrepositories) (hp : S'.Perm S)
    (h : IsSorted S' r) : IsSorted S r :=
  ⟨h.1.trans hp, h.2⟩

/-- The function `WriteSubrepositoryTo` gives one of the texts of
`WriteResult`. -/
theorem WriteSubrepositoryTo_writeResult (table : Char → Bool) (S : Subrepositories) :
    WriteResult table S (WriteSubrepositoryTo table S) :=
  ⟨sortSbr S, sortSbr_isSorted S, rfl⟩

/-- The round trip of the manifest on plain texts: for a set `S` unique by
`rel` whose texts are all plain (printable, without quote or backslash),
whatever permutation of `S` is given to the writer and whatever the sort
does, `ReadFrom` succeeds on the text written and returns the records of
`S`, sorted by branch then `rel`, with the working dir of the reader. -/
theorem manifest_roundtrip_plain (table : Char → Bool) (wd : Path) (S : Subrepositories)
    (hp : ∀ d ∈ S, PlainSbr table d) (hu : UniqueRel S)
    (S' : Subrepositories) (out : List Char) (hperm : S'.Perm S)
    (hw : WriteResult table S' out) :
    ReadFrom wd out = some (some ((sortSbr S).map (withWd wd)), none) ∧
      (sortSbr S).Perm S := by
  obtain ⟨sorted, hs, rfl⟩ := hw
  have hs' : IsSorted S sorted := IsSorted_of_perm S S' sorted hperm hs
  have he : sorted = sortSbr S := IsSorted_unique S _ _ hu hs' (sortSbr_isSorted S)
  subst he
  refine ⟨ReadFrom_writeLoop table wd _ ?_, (sortSbr_isSorted S).1⟩
  intro d hd
  exact hp d ((sortSbr_isSorted S).1.mem_iff.mp hd)

/-- The round trip at a concrete input with two branches, given to the
writer in two different orders. -/
theorem manifest_roundtrip_plain_witness :
    ReadFrom ["w"] (WriteSubrepositoryTo (fun _ => true)
        [⟨["x"], "a", "r1", "master"⟩, ⟨["x"], "b c", "r2", "dev"⟩]) =
      some (some [⟨["w"], "b c", "r2", "dev"⟩, ⟨["w"], "a", "r1", "master"⟩], none) ∧
    ReadFrom ["w"] (WriteSubrepositoryTo (fun _ => true)
        [⟨["x"], "b c", "r2", "dev"⟩, ⟨["x"], "a", "r1", "master"⟩]) =
      (ReadFrom ["w"] (WriteSubrepositoryTo (fun _ => true)
        [⟨["x"], "a", "r1", "master"⟩, ⟨["x"], "b c", "r2", "dev"⟩])) :=
  ⟨by decide,
   ((manifest_roundtrip_plain (fun _ => true) ["w"]
      [⟨["x"], "a", "r1", "master"⟩, ⟨["x"], "b c", "r2", "dev"⟩]
      (by
        intro d hd
        simp only [List.mem_cons, List.mem_singleton, List.not_mem_nil, or_false] at hd
        rcases hd with rfl | rfl <;>
          exact ⟨by intro c hc; revert c; decide, by intro c hc; revert c; decide,
            by intro c hc; revert c; decide⟩)
      (by decide) _ _ (List.Perm.swap _ _ _)
      (WriteSubrepositoryTo_writeResult _ _)).1).trans
    ((manifest_roundtrip_plain (fun _ => true) ["w"]
      [⟨["x"], "a", "r1", "master"⟩, ⟨["x"], "b c", "r2", "dev"⟩]
      (by
        intro d hd
        simp only [List.mem_cons, List.mem_singleton, List.not_mem_nil, or_false] at hd
        rcases hd with rfl | rfl <;>
          exact ⟨by intro c hc; revert c; decide, by intro c hc; revert c; decide,
            by intro c hc; revert c; decide⟩)
      (by decide) _ _ (List.Perm.refl _)
      (WriteSubrepositoryTo_writeResult _ _)).1).symm⟩

/-! ### Traversal errors -/

/-- Given a file info, the callback never returns another error than
`SkipDir`, whatever the incoming error, and keeps what was emitted. -/
theorem walkFn_ignores_err (prjc : List Path) (path : Path) (info : FileInfo)
    (err : Option WalkError) :
    ∃ prjc1, prjc <+: prjc1 ∧
      (walkFn prjc path (some info) err = some (prjc1, none) ∨
       walkFn prjc path (some info) err = some (prjc1, some WalkError.SkipDir)) := by
  by_cases hd : info.isDir = true
  · by_cases hn : info.name = ".git"
    · exact ⟨prjc ++ [pathDir path], List.prefix_append _ _, Or.inr (by simp [walkFn, hd, hn])⟩
    · exact ⟨prjc, List.prefix_refl _, Or.inl (by simp [walkFn, hd, hn])⟩
  · exact ⟨prjc, List.prefix_refl _, Or.inl (by simp [walkFn, hd])⟩

/-- The walk of a tree without `Lstat` failure, in closed form. -/
theorem Walk_noLstatError (parent : Path) (root : Entry) (h : root.noLstatError = true) :
    Walk walkFn parent root =
      some (⟨((reachability (pathJoin parent root.name) root).filter
                (fun x => x.2.isGitDir)).map (fun x => pathDir x.1),
             (reachability (pathJoin parent root.name) root).map Prod.fst⟩, none) := by
  have hw := walk_noLstatError (pathJoin parent root.name) ⟨[], []⟩ root h
  simp only [List.nil_append] at hw
  unfold Walk
  rw [hw]
  by_cases hg : root.isGitDir = true
  · simp [hg]
  · simp [hg]

/-- On a nil file info, which is what the walk hands over when `Lstat`
failed, both callbacks panic; so does the discovery of a tree holding such
a name. -/
theorem walkFn_nil_FileInfo_panics :
    (∀ prjc path err, walkFn prjc path none err = none) ∧
    (∀ prjc path err, walker prjc path none err = none) ∧
    Find [] brokenExample = none ∧ WorkingDirSubpath [] brokenExample = none :=
  ⟨fun _ _ _ => rfl, fun _ _ _ => rfl, by decide, by decide⟩

/-- C11 fails on the tree `/w` with the unlistable directory `a` and the
checkout `b`: handed the listing error of `/w/a`, both callbacks return a
nil error; the walk goes on to `/w/b` and `/w/b/.git`; `scanner.Find`
returns a nil error and `WorkingDirSubpath` the checkout `/w/b`, found
after the error. -/
theorem traversal_error_does_not_abort :
    walkFn [] ["w", "a"] (some ⟨"a", true⟩) (some (WalkError.other "permission denied")) =
      some ([], none) ∧
    walker [] ["w", "a"] (some ⟨"a", true⟩) (some (WalkError.other "permission denied")) =
      some ([], none) ∧
    Walk walkFn [] unreadableExample =
      some (⟨[["w", "b"]], [["w"], ["w", "a"], ["w", "b"], ["w", "b", ".git"]]⟩, none) ∧
    Find [] unreadableExample = some ([["w", "b"]], none) ∧
    WorkingDirSubpath [] unreadableExample = some [["w", "b"]] := by
  refine ⟨by decide, by decide, by decide, by decide, by decide⟩

/-- C11 as amended: a traversal error does not abort the walk.  Handed a
file info and a non-nil error, `walkFn` and `walker` return a nil error or
`SkipDir` and keep what was emitted; on every tree in which no `Lstat`
fails, whatever directories fail to list, the walk ends without error after
the callback was called on every reachable path, `scanner.Find` returns a
nil error, `WorkingDirSubpath` returns, and the parent of every reachable
directory named `.git` is emitted, before or after a failing directory. -/
theorem traversal_errors_are_ignored (parent : Path) (root : Entry)
    (h : root.noLstatError = true) :
    (∀ (prjc : List Path) (path : Path) (info : FileInfo) (e : WalkError),
      walker prjc path (some info) (some e) = walkFn prjc path (some info) (some e) ∧
      ∃ prjc1, prjc <+: prjc1 ∧
        (walkFn prjc path (some info) (some e) = some (prjc1, none) ∨
         walkFn prjc path (some info) (some e) = some (prjc1, some WalkError.SkipDir))) ∧
    ∃ prjc visited : List Path,
      Walk walkFn parent root = some (⟨prjc, visited⟩, none) ∧
      Find parent root = some (prjc, none) ∧
      WorkingDirSubpath parent root = some prjc ∧
      (∀ q c, Reachable (pathJoin parent root.name) root q c → q ∈ visited) ∧
      (∀ q c, Reachable (pathJoin parent root.name) root q c → c.isGitDir = true →
        pathDir q ∈ prjc) := by
  have hW := Walk_noLstatError parent root h
  refine ⟨fun prjc path info e => ⟨rfl, walkFn_ignores_err prjc path info (some e)⟩,
    _, _, hW, ?_, ?_, ?_, ?_⟩
  · simp [Find, hW]
  · simp [WorkingDirSubpath, walker_eq_walkFn, hW]
  · intro q c hr
    exact List.mem_map.mpr ⟨(q, c), (mem_reachability _ (q, c) root).mpr hr, rfl⟩
  · intro q c hr hg
    exact List.mem_map.mpr
      ⟨(q, c), List.mem_filter.mpr ⟨(mem_reachability _ (q, c) root).mpr hr, hg⟩, rfl⟩

/-- C11 as amended, on the tree `/w` with the unlistable directory `a`
followed by the checkout `b`: the path `/w/b/.git`, which comes after the
failing directory, is visited and its parent is emitted, and `Find` returns
a nil error. -/
theorem traversal_errors_are_ignored_witness :
    unreadableExample.noLstatError = true ∧
    ∃ prjc visited : List Path,
      Walk walkFn [] unreadableExample = some (⟨prjc, visited⟩, none) ∧
      Find [] unreadableExample = some (prjc, none) ∧
      ["w", "a"] ∈ visited ∧ ["w", "b", ".git"] ∈ visited ∧ ["w", "b"] ∈ prjc := by
  refine ⟨by decide, ?_⟩
  obtain ⟨prjc, visited, h1, h2, _, h4, h5⟩ :=
    (traversal_errors_are_ignored [] unreadableExample (by decide)).2
  have ra : Reachable (pathJoin [] unreadableExample.name) unreadableExample
      ["w", "a"] (Entry.unreadable "a" "permission denied") :=
    Reachable.child (q := ["w"]) (c := Entry.unreadable "a" "permission denied")
      Reachable.here (by decide) (by simp)
  have rb : Reachable (pathJoin [] unreadableExample.name) unreadableExample
      ["w", "b"] (Entry.dir "b" [Entry.dir ".git" []]) :=
    Reachable.child (q := ["w"]) (c := Entry.dir "b" [Entry.dir ".git" []])
      Reachable.here (by decide) (by simp)
  have rg : Reachable (pathJoin [] unreadableExample.name) unreadableExample
      ["w", "b", ".git"] (Entry.dir ".git" []) :=
    Reachable.child (q := ["w", "b"]) (c := Entry.dir ".git" []) rb (by decide) (by simp)
  exact ⟨prjc, visited, h1, h2, h4 _ _ ra, h4 _ _ rg, h5 _ _ rg (by decide)⟩

/-! ### The flag returned by `RemoveAll` -/

/-- The flag `changed` after `n` iterations of the loop of `RemoveAll`: it
is set exactly when, among `d[0:n]`, some retained element comes after a
removed one. -/
theorem removeLoop_changed_invariant (deleted : SbrMap) (d : Subrepositories) (n : Nat)
    (hn : n ≤ d.length) :
    ((List.range n).foldl (removeStep deleted) ⟨d, 0, false⟩).changed = true ↔
      ∃ k y, k < n ∧ d[k]? = some y ∧ mapHas deleted y.rel = false ∧
        ∃ x ∈ d.take k, mapHas deleted x.rel = true := by
  induction n with
  | zero => simp
  | succ n ih =>
    have hlt : n < d.length := hn
    have ih' := ih (Nat.le_of_lt hlt)
    obtain ⟨hlen, hj, htake, hdrop⟩ := removeLoop_invariant deleted d n (Nat.le_of_lt hlt)
    simp only [List.range_succ, List.foldl_append, List.foldl_cons, List.foldl_nil]
    generalize (List.range n).foldl (removeStep deleted) ⟨d, 0, false⟩ = st
      at hlen hj htake hdrop ih'
    have hget : st.sources[n]? = some d[n] := by
      rw [getElem?_of_drop_eq _ _ n hdrop, List.getElem?_eq_getElem hlt]
    have hjlen : st.j = ((d.take n).filter (fun x => !mapHas deleted x.rel)).length := by
      rw [← htake, List.length_take]
      omega
    have hstep : ∀ P : Nat → Prop, (∃ k, k < n + 1 ∧ P k) ↔ (∃ k, k < n ∧ P k) ∨ P n := by
      intro P
      constructor
      · rintro ⟨k, hk, hP⟩
        by_cases hkn : k = n
        · exact Or.inr (hkn ▸ hP)
        · exact Or.inl ⟨k, by omega, hP⟩
      · rintro (⟨k, hk, hP⟩ | hP)
        · exact ⟨k, by omega, hP⟩
        · exact ⟨n, by omega, hP⟩
    have hsplit : (∃ k y, k < n + 1 ∧ d[k]? = some y ∧ mapHas deleted y.rel = false ∧
          ∃ x ∈ d.take k, mapHas deleted x.rel = true) ↔
        (∃ k y, k < n ∧ d[k]? = some y ∧ mapHas deleted y.rel = false ∧
          ∃ x ∈ d.take k, mapHas deleted x.rel = true) ∨
        (mapHas deleted d[n].rel = false ∧ ∃ x ∈ d.take n, mapHas deleted x.rel = true) := by
      have := hstep (fun k => ∃ y, d[k]? = some y ∧ mapHas deleted y.rel = false ∧
          ∃ x ∈ d.take k, mapHas deleted x.rel = true)
      simp only [List.getElem?_eq_getElem hlt, Option.some.injEq, exists_eq_left'] at this
      constructor
      · rintro ⟨k, y, hk, hrest⟩
        exact this.mp ⟨k, hk, y, hrest⟩ |>.imp (fun ⟨k, hk, y, hr⟩ => ⟨k, y, hk, hr⟩) id
      · intro h
        obtain ⟨k, hk, y, hr⟩ := this.mpr (h.imp (fun ⟨k, y, hk, hr⟩ => ⟨k, hk, y, hr⟩) id)
        exact ⟨k, y, hk, hr⟩
    rw [hsplit]
    simp only [removeStep, hget]
    by_cases hdel : mapHas deleted d[n].rel = true
    · simp only [hdel, if_true]
      rw [ih']
      simp
    · have hdel' : mapHas deleted d[n].rel = false := by simpa using hdel
      simp only [hdel, Bool.false_eq_true, if_false]
      by_cases hij : n = st.j
      · simp only [hij, ne_eq, not_true_eq_false, if_false]
        have hall : ∀ x ∈ d.take n, (!mapHas deleted x.rel) = true := by
          apply List.filter_length_eq_length.mp
          rw [← hjlen, ← hij, List.length_take]
          omega
        have hnone : ¬ ∃ x ∈ d.take n, mapHas deleted x.rel = true := by
          rintro ⟨x, hx, hd⟩
          have := hall x hx
          simp [hd] at this
        rw [ih']
        rw [← hij]
        simp [hnone]
      · simp only [ne_eq, hij, not_false_eq_true, if_true, true_iff]
        right
        refine ⟨trivial, ?_⟩
        have hlt2 : ((d.take n).filter (fun x => !mapHas deleted x.rel)).length <
            (d.take n).length := by
          rw [← hjlen, List.length_take]
          omega
        obtain ⟨x, hx, hp⟩ := List.length_filter_lt_length_iff_exists.mp hlt2
        exact ⟨x, hx, by simpa using hp⟩

/-- The flag returned by `S.RemoveAll(R)` is set exactly when some retained
element of `S` comes after a removed one, that is, when an element was
copied down. -/
theorem RemoveAll_changed_iff (S R : Subrepositories) :
    (RemoveAll S R).2 = true ↔
      ∃ k y, S[k]? = some y ∧ (∀ r ∈ R, r.rel ≠ y.rel) ∧
        ∃ x ∈ S.take k, ∃ r ∈ R, r.rel = x.rel := by
  have h := removeLoop_changed_invariant (indexSbr R) S S.length (Nat.le_refl _)
  have hfalse : ∀ y : Subrepository,
      mapHas (indexSbr R) y.rel = false ↔ ∀ r ∈ R, r.rel ≠ y.rel := by
    intro y
    rw [← Bool.not_eq_true, indexSbr_has]
    constructor
    · intro hno r hr hry
      exact hno ⟨r, hr, hry⟩
    · rintro hall ⟨r, hr, hry⟩
      exact hall r hr hry
  simp only [RemoveAll, removeLoop]
  rw [h]
  constructor
  · rintro ⟨k, y, _, hy, hk, x, hx, hd⟩
    exact ⟨k, y, hy, (hfalse y).mp hk, x, hx, (indexSbr_has R x.rel).mp hd⟩
  · rintro ⟨k, y, hy, hk, x, hx, hd⟩
    have hlt : k < S.length := by
      rcases Nat.lt_or_ge k S.length with h1 | h1
      · exact h1
      · rw [List.getElem?_eq_none h1] at hy
        cases hy
    exact ⟨k, y, hlt, hy, (hfalse y).mpr hk, x, hx, (indexSbr_has R x.rel).mpr hd⟩

/-- When the flag returned by `S.RemoveAll(R)` is set, the list got
shorter. -/
theorem RemoveAll_changed_shorter (S R : Subrepositories)
    (h : (RemoveAll S R).2 = true) : (RemoveAll S R).1.length < S.length := by
  obtain ⟨k, y, _, _, x, hx, r, hr, hrx⟩ := (RemoveAll_changed_iff S R).mp h
  rw [RemoveAll_fst]
  apply List.length_filter_lt_length_iff_exists.mpr
  refine ⟨x, List.mem_of_mem_take hx, ?_⟩
  have : mapHas (indexSbr R) x.rel = true := (indexSbr_has R x.rel).mpr ⟨r, hr, hrx⟩
  simp [this]

/-- C12 at a failing input: `[a, b].RemoveAll([b])` removes the last element
`b`, the list becomes `[a]`, shorter than the original, and the returned
flag is `false`; when the removed element comes first, `[b, a].RemoveAll([b])`
returns `true`. -/
theorem RemoveAll_flag_misses_trailing_removal :
    RemoveAll [⟨["w"], "a", "r1", "master"⟩, ⟨["w"], "b", "r2", "master"⟩]
        [⟨["w"], "b", "r2", "master"⟩] =
      ([⟨["w"], "a", "r1", "master"⟩], false) ∧
    RemoveAll [⟨["w"], "b", "r2", "master"⟩, ⟨["w"], "a", "r1", "master"⟩]
        [⟨["w"], "b", "r2", "master"⟩] =
      ([⟨["w"], "a", "r1", "master"⟩], true) := by
  constructor <;> decide

/-! ### `Lstat` failures during the discovery -/

/-- The walk returns exactly when `Lstat` fails on no reachable name;
otherwise the callback panics on the nil file info. -/
theorem Walk_returns_iff (parent : Path) (root : Entry) :
    (∃ r, Walk walkFn parent root = some r) ↔
      ∀ q c, Reachable (pathJoin parent root.name) root q c → c.lstatFails = false := by
  constructor
  · rintro ⟨r, hr⟩ q c hreach
    by_cases hb : c.lstatFails = true
    · have hp := walk_reachable_panics (pathJoin parent root.name) ⟨[], []⟩ root
        ⟨(q, c), (mem_reachability _ (q, c) root).mpr hreach, hb⟩
      simp [Walk, hp] at hr
    · simpa using hb
  · intro h
    have hw := walk_reachable_ok (pathJoin parent root.name) ⟨[], []⟩ root
      (fun x hx => h x.1 x.2 ((mem_reachability _ x root).mp hx))
    unfold Walk
    rw [hw]
    by_cases hg : root.isGitDir = true
    · simp [hg]
    · simp [hg]

/-- A name on which `Lstat` would fail does no harm inside a directory named
`.git`, which the walk never enters. -/
theorem WorkingDirSubpath_insideGitExample :
    insideGitExample.noLstatError = false ∧
    WorkingDirSubpath [] insideGitExample = some [["w", "b"]] ∧
    Find [] insideGitExample = some ([["w", "b"]], none) := by
  refine ⟨by decide, by decide, by decide⟩

/-- C5 at a failing input: in the tree `/w` with the checkout `b` and the
directory `c` whose entry `x` fails `Lstat`, the only directory named `.git`
is `/w/b/.git`, reachable without passing through a directory named `.git`,
so the parents to emit are exactly `/w/b`; but the walk hands `/w/c/x` to
the callback with a nil file info, `f.IsDir()` panics, and neither
`scanner.Find` nor `WorkingDirSubpath` returns. -/
theorem scanner_panics_on_lstat_failure :
    Reachable ["w"] lstatFailureExample ["w", "b", ".git"] (Entry.dir ".git" []) ∧
    ((reachability ["w"] lstatFailureExample).filter (fun x => x.2.isGitDir)).map
      (fun x => pathDir x.1) = [["w", "b"]] ∧
    walkFn [["w", "b"]] ["w", "c", "x"] none (some (WalkError.other "permission denied")) =
      none ∧
    Walk walkFn [] lstatFailureExample = none ∧
    Find [] lstatFailureExample = none ∧
    WorkingDirSubpath [] lstatFailureExample = none := by
  refine ⟨?_, by decide, by decide, by decide, by decide, by decide⟩
  have rb : Reachable ["w"] lstatFailureExample ["w", "b"]
      (Entry.dir "b" [Entry.dir ".git" []]) :=
    Reachable.child (q := ["w"]) (c := Entry.dir "b" [Entry.dir ".git" []])
      Reachable.here (by decide) (by simp)
  exact Reachable.child (q := ["w", "b"]) (c := Entry.dir ".git" []) rb (by decide)
    (by simp)

/-- The two exits of `WorkingDirSubrepositories` through `log.Fatalf`, with
their messages: a checkout without branch, a checkout without remote. -/
theorem WorkingDirSubrepositories_fatal :
    WorkingDirSubrepositories (NewWorkspace ["w"] true)
        { manifest := .missing, parent := [], root := .dir "w" [.dir "a" [.dir ".git" []]],
          GitBranch := fun _ => .error "exit status 128",
          GitRemoteOrigin := fun _ => .ok "r" } =
      .fatal "/w/a doesn\x27t seem to have branches: exit status 128" ∧
    WorkingDirSubrepositories (NewWorkspace ["w"] true)
        { manifest := .missing, parent := [], root := .dir "w" [.dir "a" [.dir ".git" []]],
          GitBranch := fun _ => .ok "master",
          GitRemoteOrigin := fun _ => .error "exit status 1" } =
      .fatal "/w/a doesn\x27t declare a remote \x27origin\x27: exit status 1" := by
  constructor <;> decide

end Sbr
